import Mathlib

/-!
Shallow embedding of the kite-gtt-demo repository.

Covered source files:
* `data_teleporter.py` — the BANK_NEW → BANK_FINAL replication pipeline:
  key normalization, paged key search, contiguous-run grouping, batched
  ranged overwrites, chunked appends, retry wrappers.
* `extra/gtt_core.py`, `extra/gtt_services.py`, `extra/gtt_processor_new.py`
  — the GTT instruction state machine: action parsing, fuzzy type
  normalization, matching, validation, and the PLACE/UPDATE/DELETE handlers.

Modelling conventions: sheet cells are strings and a sheet is a list of rows
(row `i` of the sheet is list element `i - 1`); a missing cell reads as
`none`/`""` exactly as the Python code pads short rows; prices and
quantities are rationals and integers; remote calls are modelled as pure
state passing plus an explicit trace of broker-API calls; fallible remote
calls are oracles `Nat → Except ε α` giving the outcome of each attempt.
Python string operations are re-implemented structurally on `List Char`
(`str_trim`, `str_upper`, `sub_of`) so that all definitions evaluate inside
the kernel; they agree with `str.strip`, `str.upper` and the `in` substring
test on ASCII data.  Recursions that the Python code drives by a growing
row pointer are given an explicit fuel argument that provably suffices
(`fuel = remaining.length`); Python diverges when `page_size = 0` or
`batch_size = 0`, so those models are only meaningful for positive sizes
and every theorem assumes positivity.
-/

namespace KiteGtt

/-- Strip the leading and trailing whitespace of a string, as Python
`str.strip()` does. -/
def str_trim (s : String) : String :=
  ⟨((s.data.dropWhile Char.isWhitespace).reverse.dropWhile Char.isWhitespace).reverse⟩

/-- Upper-case a string character by character, as Python `str.upper()` does
on ASCII data. -/
def str_upper (s : String) : String :=
  ⟨s.data.map Char.toUpper⟩

/-- Helper for `sub_of`: decide whether `n` occurs as a contiguous sublist
of the second argument. -/
def sub_of_list (n : List Char) : List Char → Bool
  | [] => n.isEmpty
  | c :: t => n.isPrefixOf (c :: t) || sub_of_list n t

/-- Python's substring test `needle in hay`. -/
def sub_of (needle hay : String) : Bool :=
  sub_of_list needle.data hay.data

end KiteGtt

namespace DataTeleporter

open KiteGtt

/-- A sheet row: the cell values of columns A onward. -/
abbrev Row := List String

/-- The composite (date, symbol) identifier of a row. -/
abbrev SheetKey := String × String

/-- The `found` dictionary of `find_keys_in_sheet_paged`, kept in insertion
order. -/
abbrev FoundMap := List (SheetKey × List Nat)

/-- Tuning constant `MAX_RETRIES = 5`. -/
def MAX_RETRIES : Nat := 5

/-- Embeds `normalize_key`: `None` becomes the empty string, other cells are
converted to strings and stripped of surrounding whitespace. -/
def normalize_key (a b : Option String) : SheetKey :=
  (str_trim (a.getD ("")), str_trim (b.getD ("")))

/-- The normalized key of a row, read from its first two cells; a short row
reads as empty cells, exactly as `row[0] if len(row) > 0 else ""` does. -/
def row_key (r : Row) : SheetKey :=
  normalize_key r[0]? r[1]?

/-- The cap on the random sleep of `backoff_sleep(attempt)` with the default
`base = 1.0`, `cap = 30.0`: `exp = min(cap, base * 2**(attempt-1))`. -/
def backoff_cap (attempt : Nat) : Rat :=
  min (30 : Rat) ((1 : Rat) * 2 ^ (attempt - 1))

/-- Whether an `Except` value is a success. -/
def except_ok : Except ε α → Bool
  | .ok _ => true
  | .error _ => false

/-- The attempt loop of `gsheet_get`: try `call attempt`; on success return
its value with Python's `or []` applied; on failure retry, and when no
attempts remain the last caught exception propagates.  The second argument
is the number of attempts still allowed after the current one. -/
def gsheet_get_go (call : Nat → Except ε (Option (List Row))) : Nat → Nat → Except ε (List Row)
  | attempt, 0 => (call attempt).map (fun v => v.getD [])
  | attempt, n + 1 =>
    match call attempt with
    | .ok v => .ok (v.getD [])
    | .error _ => gsheet_get_go call (attempt + 1) n

/-- Embeds `gsheet_get` with `retries = MAX_RETRIES`: the oracle gives each
attempt's outcome (`none` models the API returning a falsy value, which the
code replaces by `[]`). -/
def gsheet_get (call : Nat → Except ε (Option (List Row))) : Except ε (List Row) :=
  gsheet_get_go call 1 (MAX_RETRIES - 1)

/-- The attempt loop of `gsheet_update`, analogous to `gsheet_get_go`. -/
def gsheet_update_go (call : Nat → Except ε Unit) : Nat → Nat → Except ε Unit
  | attempt, 0 => call attempt
  | attempt, n + 1 =>
    match call attempt with
    | .ok _ => .ok ()
    | .error _ => gsheet_update_go call (attempt + 1) n

/-- Embeds `gsheet_update` with `retries = MAX_RETRIES`. -/
def gsheet_update (call : Nat → Except ε Unit) : Except ε Unit :=
  gsheet_update_go call 1 (MAX_RETRIES - 1)

/-- Association-list lookup in the `found` dictionary. -/
def alookup : FoundMap → SheetKey → Option (List Nat)
  | [], _ => none
  | (k2, l) :: t, k => if k2 = k then some l else alookup t k

/-- Embeds `found.setdefault(k, []).append(idx)`. -/
def found_insert : FoundMap → SheetKey → Nat → FoundMap
  | [], k, i => [(k, [i])]
  | (k2, l) :: t, k, i =>
    if k2 = k then (k2, l ++ [i]) :: t else (k2, l) :: found_insert t k i

/-- The `for idx, row in enumerate(page_vals, start=start)` body of
`find_keys_in_sheet_paged`: record the absolute row index of each row whose
key is still needed and discard that key from the needed set. -/
def scan_rows : List Row → Nat → List SheetKey → FoundMap → FoundMap × List SheetKey
  | [], _, needed, found => (found, needed)
  | r :: rest, start, needed, found =>
    let k := row_key r
    if k ∈ needed then
      scan_rows rest (start + 1) (needed.filter (fun k2 => decide (k2 ≠ k)))
        (found_insert found k start)
    else
      scan_rows rest (start + 1) needed found

/-- The page loop of `find_keys_in_sheet_paged`.  The fuel argument is
initialized to the number of rows, which suffices because every iteration
consumes at least one row when `page_size ≥ 1`.  Returns the `found` map
and the number of pages read. -/
def fk_go (page_size : Nat) : Nat → List Row → Nat → List SheetKey → FoundMap → Nat → FoundMap × Nat
  | 0, _, _, _, found, pages => (found, pages)
  | fuel + 1, remaining, start, needed, found, pages =>
    if remaining.isEmpty || needed.isEmpty then (found, pages)
    else
      let res := scan_rows (remaining.take page_size) start needed found
      if res.2.isEmpty then (res.1, pages + 1)
      else fk_go page_size fuel (remaining.drop page_size) (start + page_size) res.2 res.1 (pages + 1)

/-- Embeds `find_keys_in_sheet_paged` on a sheet with `total_rows = rows.length`:
scan pages of `page_size` rows, starting at row 1, until every requested key
has been seen once or the sheet is exhausted.  Returns the found map and the
number of pages read.  Python loops forever when `page_size = 0`; the model
returns the empty map there and all theorems assume `1 ≤ page_size`. -/
def find_keys_in_sheet_paged (rows : List Row) (keys_set : List SheetKey) (page_size : Nat) : FoundMap × Nat :=
  if page_size = 0 then ([], 0)
  else fk_go page_size rows.length rows 1 keys_set [] 0

/-- The 0-based index of the first row of the sheet whose key is `k`. -/
def first_idx (k : SheetKey) : List Row → Option Nat
  | [] => none
  | r :: rest => if row_key r = k then some 0 else (first_idx k rest).map (· + 1)

/-- The 1-based row index of the first occurrence of key `k`. -/
def first_occurrence (rows : List Row) (k : SheetKey) : Option Nat :=
  (first_idx k rows).map (· + 1)

/-- Whether key `k` occurs in the sheet. -/
def key_occurs (rows : List Row) (k : SheetKey) : Bool :=
  rows.any (fun r => decide (row_key r = k))

/-- The overwrite part of the action plan in closed form: one
`(first occurrence row, payload row)` pair per payload key present in the
destination. -/
def ovw_of (payload : List (SheetKey × Row)) (dest : List Row) : List (Nat × Row) :=
  payload.filterMap (fun p => (first_idx p.1 dest).map (fun j => (j + 1, p.2)))

/-- The append part of the action plan in closed form: the payload rows
whose key is absent from the destination, in payload order. -/
def app_of (payload : List (SheetKey × Row)) (dest : List Row) : List Row :=
  payload.filterMap (fun p => if first_idx p.1 dest = none then some p.2 else none)

/-- The linear scan that `find_keys_in_sheet_paged` is compared against:
one pass over all rows from row 1. -/
def linear_scan (rows : List Row) (keys_set : List SheetKey) : FoundMap :=
  (scan_rows rows 1 keys_set []).1

/-- The inner loop of `_group_contiguous`: `start`/`prev` are the bounds of
the run being accumulated. -/
def gc_go (start prev : Nat) : List Nat → List (Nat × Nat)
  | [] => [(start, prev)]
  | i :: rest => if i = prev + 1 then gc_go start i rest else (start, prev) :: gc_go i i rest

/-- Embeds `_group_contiguous`: split a sorted index list into inclusive
`(start, end)` runs of consecutive integers. -/
def group_contiguous : List Nat → List (Nat × Nat)
  | [] => []
  | i :: rest => gc_go i i rest

/-- Stable insertion into a sorted list (helper for `sort_by`). -/
def sorted_insert (le : α → α → Bool) (x : α) : List α → List α
  | [] => [x]
  | y :: t => if le x y then x :: y :: t else y :: sorted_insert le x t

/-- Stable sort; models Python's `sorted`. -/
def sort_by (le : α → α → Bool) : List α → List α
  | [] => []
  | x :: t => sorted_insert le x (sort_by le t)

/-- The inline grouping loop of `batch_overwrite_rows`: group the sorted
`(index, values)` updates into runs of consecutive indices. -/
def ow_go (current : List (Nat × Row)) (prev : Nat) : List (Nat × Row) → List (List (Nat × Row))
  | [] => [current]
  | p :: rest =>
    if p.1 = prev + 1 then ow_go (current ++ [p]) p.1 rest
    else current :: ow_go [p] p.1 rest

/-- The groups built by `batch_overwrite_rows` before chunking. -/
def ow_groups : List (Nat × Row) → List (List (Nat × Row))
  | [] => []
  | p :: rest => ow_go [p] p.1 rest

/-- Fuel-driven chunking helper; the fuel `l.length` suffices when `b ≥ 1`. -/
def chunk_fuel (b : Nat) : Nat → List α → List (List α)
  | 0, _ => []
  | _, [] => []
  | fuel + 1, x :: t => (x :: t).take b :: chunk_fuel b fuel ((x :: t).drop b)

/-- The `while s_idx < total` chunking loop of `batch_overwrite_rows`: split
a list into consecutive chunks of at most `b` elements.  Python loops
forever when `b = 0`; theorems assume `1 ≤ b`. -/
def chunk_list (b : Nat) (l : List α) : List (List α) :=
  if b = 0 then [] else chunk_fuel b l.length l

/-- One ranged write of `batch_overwrite_rows`:
`(chunk_start, chunk_end, chunk_rows)` with
`chunk_start = indices[s_idx]` and `chunk_end = indices[s_idx + len - 1]`,
written to the range `A{chunk_start}:G{chunk_end}`. -/
def to_write (chunk : List (Nat × Row)) : Nat × Nat × List Row :=
  ((chunk.headD (0, [])).1, (chunk.getLastD (0, [])).1, chunk.map Prod.snd)

/-- Embeds `batch_overwrite_rows` as the list of ranged writes it issues. -/
def batch_overwrite_rows (updates : List (Nat × Row)) (batch_size : Nat) : List (Nat × Nat × List Row) :=
  let updates_sorted := sort_by (fun a b => decide (a.1 ≤ b.1)) updates
  (ow_groups updates_sorted).flatMap (fun grp =>
    (chunk_list batch_size grp).map to_write)

/-- Embeds `delete_rows_descending` as its effect on the sheet contents:
delete the 1-based rows in descending order of index. -/
def delete_rows_descending (rows : List Row) (row_indices : List Nat) : List Row :=
  (sort_by (fun a b => decide (b ≤ a)) row_indices.dedup).foldl
    (fun d r => d.eraseIdx (r - 1)) rows

/-- Python `min` of a nonempty list (0 on the empty list, never reached). -/
def list_min : List Nat → Nat
  | [] => 0
  | i :: is => is.foldl Nat.min i

/-- The action plan that `replicate_bank_new_to_dest` builds from the
destination lookup: rows to overwrite (canonical index, payload row), rows
to append, and extra duplicate rows to delete. -/
structure Plan where
  to_overwrite : List (Nat × Row)
  to_append : List Row
  duplicates_to_delete : List Nat
deriving DecidableEq

/-- The `for key, src_row in payload_map.items()` plan-building loop of
`replicate_bank_new_to_dest`. -/
def build_plan (found : FoundMap) : List (SheetKey × Row) → Plan
  | [] => ⟨[], [], []⟩
  | (k, src_row) :: rest =>
    let p := build_plan found rest
    let dest_idxs := (alookup found k).getD []
    if dest_idxs.isEmpty then
      ⟨p.to_overwrite, src_row :: p.to_append, p.duplicates_to_delete⟩
    else
      let s := sort_by (fun a b => decide (a ≤ b)) dest_idxs.dedup
      ⟨(s.headD 0, src_row) :: p.to_overwrite, p.to_append, s.tail ++ p.duplicates_to_delete⟩

/-- The re-location loop run after duplicate deletion (`new_overwrite`). -/
def rebuild_overwrites (found : FoundMap) : List (SheetKey × Row) → List (Nat × Row)
  | [] => []
  | (k, src_row) :: rest =>
    let dest_idxs := (alookup found k).getD []
    if dest_idxs.isEmpty then rebuild_overwrites found rest
    else (list_min dest_idxs, src_row) :: rebuild_overwrites found rest

/-- The sheet-content effect of the ranged overwrites: write each payload
row at its 1-based target row. -/
def apply_overwrites (dest : List Row) (updates : List (Nat × Row)) : List Row :=
  updates.foldl (fun d p => d.set (p.1 - 1) p.2) dest

/-- Embeds the destination phase of `replicate_bank_new_to_dest` (steps 4-8)
as its effect on the BANK_FINAL contents: locate the payload keys, build the
action plan, delete duplicate extras and re-locate if any, perform the
overwrites, then append the remaining rows.  `payload` is `payload_map` in
its insertion order; the H:I formula copy only touches columns outside A:G
and is not part of the contents model. -/
def replicate_bank_new_to_dest (page_size : Nat) (payload : List (SheetKey × Row)) (dest : List Row) : List Row :=
  let keys := payload.map Prod.fst
  let found := (find_keys_in_sheet_paged dest keys page_size).1
  let plan := build_plan found payload
  if plan.duplicates_to_delete.isEmpty then
    apply_overwrites dest plan.to_overwrite ++ plan.to_append
  else
    let dest1 := delete_rows_descending dest plan.duplicates_to_delete
    let found2 := (find_keys_in_sheet_paged dest1 keys page_size).1
    apply_overwrites dest1 (rebuild_overwrites found2 payload) ++ plan.to_append

end DataTeleporter

namespace GttCore

open KiteGtt

/-- The `ActionType` enum of `gtt_core.py`. -/
inductive ActionType
  | PLACE
  | UPDATE
  | DELETE
  | UNKNOWN
deriving DecidableEq, Repr

/-- The `TransactionSide` enum of `gtt_core.py`. -/
inductive TransactionSide
  | BUY
  | SELL
deriving DecidableEq, Repr

/-- The `GTTInstruction` dataclass; prices are rationals, quantities are
integers. -/
structure GTTInstruction where
  ticker : String
  type : String
  units : Int
  gtt_price : Rat
  live_price : Rat
  tick_size : Rat
  action : ActionType
  method : String
  gtt_date : String
  row_number : Nat
deriving DecidableEq, Repr

/-- The `GTTDataRow` dataclass. -/
structure GTTDataRow where
  ticker : String
  type : String
  units : Int
  gtt_price : Rat
  gtt_date : String
  gtt_id : String
  row_number : Nat
deriving DecidableEq, Repr

/-- `TypeNormalizer.BUY_KEYWORDS`. -/
def BUY_KEYWORDS : List String := [(" BUY"), ("RTP_BUY"), ("KWK"), ("SIP_REG")]

/-- `TypeNormalizer.SELL_KEYWORDS`. -/
def SELL_KEYWORDS : List String := [(" SELL"), ("RTP_SELL")]

/-- Embeds `TypeNormalizer.normalize_for_matching`.  Note that the keyword
containment tests run on the raw string while only the `TSL` prefix test
also looks at the stripped upper-cased string, exactly as in the source. -/
def normalize_for_matching (raw_type : Option String) : String :=
  match raw_type with
  | none => ("")
  | some s =>
    let raw := str_upper (str_trim s)
    if BUY_KEYWORDS.any (fun kw => sub_of kw s) then ("BUY")
    else if SELL_KEYWORDS.any (fun kw => sub_of kw s) then ("SELL")
    else if (("TSL").data.isPrefixOf s.data) || (("TSL").data.isPrefixOf raw.data) then ("SELL")
    else raw

/-- Embeds `DataParser.determine_action`; the `Option` input models a
possibly missing raw value, and Python's falsy test catches exactly `None`
and the empty string. -/
def determine_action (raw_action : Option String) : ActionType :=
  match raw_action with
  | none => ActionType.UNKNOWN
  | some s =>
    if s = ("") then ActionType.UNKNOWN
    else
      let raw := str_upper (str_trim s)
      if sub_of ("INSERT") raw || sub_of ("PLACE") raw then ActionType.PLACE
      else if sub_of ("UPDATE") raw then ActionType.UPDATE
      else if sub_of ("DELETE") raw then ActionType.DELETE
      else ActionType.UNKNOWN

/-- The `transaction_side` property of `GTTInstruction`. -/
def GTTInstruction.transaction_side (i : GTTInstruction) : TransactionSide :=
  if normalize_for_matching (some i.type) = ("BUY") then TransactionSide.BUY
  else TransactionSide.SELL

/-- The `limit_price` property of `GTTInstruction`. -/
def GTTInstruction.limit_price (i : GTTInstruction) : Rat :=
  let multiplier : Rat := if i.transaction_side = TransactionSide.BUY then 1 else -1
  i.gtt_price + multiplier * i.tick_size

/-- Embeds `GTTMatcher.match_for_exact_comparison`: match on all 4 key
elements with normalized types. -/
def match_for_exact_comparison (instruction : GTTInstruction) (data_row : GTTDataRow) : Bool :=
  decide (instruction.ticker = data_row.ticker) &&
  decide (normalize_for_matching (some instruction.type) = normalize_for_matching (some data_row.type)) &&
  decide (instruction.units = data_row.units) &&
  decide (instruction.gtt_price = data_row.gtt_price)

/-- Embeds `GTTMatcher.match_for_update`: match on ticker and normalized
type only. -/
def match_for_update (instruction : GTTInstruction) (data_row : GTTDataRow) : Bool :=
  decide (instruction.ticker = data_row.ticker) &&
  decide (normalize_for_matching (some instruction.type) = normalize_for_matching (some data_row.type))

/-- Embeds `GTTMatcher.find_matching_rows`. -/
def find_matching_rows (instruction : GTTInstruction) (data_rows : List GTTDataRow) (update_match : Bool) : List GTTDataRow :=
  if update_match then data_rows.filter (fun row => match_for_update instruction row)
  else data_rows.filter (fun row => match_for_exact_comparison instruction row)

/-- Embeds `GTTValidationService.should_update_gtt`. -/
def should_update_gtt (instruction : GTTInstruction) (existing_data : GTTDataRow) : Bool :=
  !(decide (existing_data.units = instruction.units) &&
    decide (existing_data.gtt_price = instruction.limit_price))

/-- Embeds `GTTValidationService.validate_instruction`. -/
def validate_instruction (instruction : GTTInstruction) : Option String :=
  if instruction.ticker = ("") then some ("Missing TICKER")
  else if instruction.type = ("") then some ("Missing TYPE")
  else if instruction.action = ActionType.UNKNOWN then some ("Unknown ACTION")
  else if instruction.units ≤ 0 then some ("Invalid UNITS")
  else if instruction.gtt_price ≤ 0 then some ("Invalid GTT PRICE")
  else none

end GttCore

namespace GttProcessor

open GttCore

namespace StatusMessages

/- The `StatusMessages` constants of `gtt_services.py`. -/

def PLACED : String := "✅ placed"

def UPDATED : String := "✅ updated"

def DELETED : String := "✅ deleted"

def DUPLICATE_FOUND : String := "⚠️ duplicate found"

def NO_UPDATE_NEEDED : String := "no update needed"

def NO_GTT_ID_UPDATE : String := "❌ no gtt_id to update"

def NO_GTT_ID_DELETE : String := "❌ no gtt_id to delete"

def NO_MATCH_FOUND : String := "❌ no match found"

def MULTIPLE_MATCHES : String := "❌ conflict: multiple matches"

end StatusMessages

/-- A broker-API call issued through `KiteGTTService`. -/
inductive KiteCall
  | place (instruction : GTTInstruction)
  | modify (gtt_id : String) (instruction : GTTInstruction)
  | del (gtt_id : String)
deriving DecidableEq

/-- The observable spreadsheet state the processor acts on: the sequence of
status writes to the instruction sheet and the parsed rows of the GTT data
sheet (data-sheet row `i` lives at list position `i - 2`, below the header
row, as `find_data_row_by_gtt_id` enumerates them). -/
structure SheetState where
  statuses : List (Nat × String)
  dataRows : List GTTDataRow
deriving DecidableEq

/-- Embeds `SheetOperations.update_status`: record a status message for an
instruction row. -/
def update_status (st : SheetState) (row_number : Nat) (status : String) : SheetState :=
  { st with statuses := st.statuses ++ [(row_number, status)] }

/-- Embeds `GoogleSheetOperations.find_data_row_by_gtt_id`: the 1-based
sheet row (starting at 2) of the first data row with the given GTT id. -/
def find_data_row_by_gtt_id (st : SheetState) (gtt_id : String) : Option Nat :=
  (st.dataRows.findIdx? (fun row => decide (KiteGtt.str_trim row.gtt_id = KiteGtt.str_trim gtt_id))).map (· + 2)

/-- Embeds `GTTProcessor._add_to_data_sheet`: append the instruction's data
(with the freshly returned GTT id) to the data sheet.  The
`parse_int_safe`/`parse_float_safe` renormalization is the identity on the
already-parsed fields. -/
def add_to_data_sheet (st : SheetState) (instruction : GTTInstruction) (gtt_id : String) : SheetState :=
  { st with
    dataRows := st.dataRows ++
      [{ ticker := instruction.ticker, type := instruction.type,
         units := instruction.units, gtt_price := instruction.gtt_price,
         gtt_date := instruction.gtt_date, gtt_id := gtt_id, row_number := 0 }] }

/-- Embeds `GTTProcessor._update_data_sheet`: overwrite the matched row's
TICKER/TYPE/UNITS/GTT PRICE/GTT DATE cells, keeping its GTT id. -/
def update_data_sheet (st : SheetState) (gtt_id : String) (instruction : GTTInstruction) : SheetState :=
  match find_data_row_by_gtt_id st gtt_id with
  | none => st
  | some row_number =>
    { st with
      dataRows := st.dataRows.modify
        (fun row =>
          { row with ticker := instruction.ticker, type := instruction.type,
                     units := instruction.units, gtt_price := instruction.gtt_price,
                     gtt_date := instruction.gtt_date })
        (row_number - 2) }

/-- Embeds `GTTProcessor._remove_from_data_sheet`. -/
def remove_from_data_sheet (st : SheetState) (gtt_id : String) : SheetState :=
  match find_data_row_by_gtt_id st gtt_id with
  | none => st
  | some row_number => { st with dataRows := st.dataRows.eraseIdx (row_number - 2) }

/-- Embeds `GTTProcessor._handle_place_action`; `place_gtt` is the broker
service, modelled on its success path and parametrized by the id it
returns.  The result pairs the new sheet state with the trace of broker
calls made. -/
def handle_place_action (place_gtt : GTTInstruction → String) (instruction : GTTInstruction)
    (data_rows : List GTTDataRow) (st : SheetState) : SheetState × List KiteCall :=
  let found_matches := find_matching_rows instruction data_rows false
  if found_matches.isEmpty then
    let gtt_id := place_gtt instruction
    let st1 := update_status st instruction.row_number StatusMessages.PLACED
    (add_to_data_sheet st1 instruction gtt_id, [KiteCall.place instruction])
  else
    (update_status st instruction.row_number StatusMessages.DUPLICATE_FOUND, [])

/-- Embeds `GTTProcessor._handle_update_action` (success path of the broker
call). -/
def handle_update_action (instruction : GTTInstruction) (data_rows : List GTTDataRow)
    (st : SheetState) : SheetState × List KiteCall :=
  let found_matches := find_matching_rows instruction data_rows true
  match found_matches with
  | [matched_row] =>
    if matched_row.gtt_id = ("") then
      (update_status st instruction.row_number StatusMessages.NO_GTT_ID_UPDATE, [])
    else if should_update_gtt instruction matched_row = false then
      (update_status st instruction.row_number StatusMessages.NO_UPDATE_NEEDED, [])
    else
      let st1 := update_status st instruction.row_number StatusMessages.UPDATED
      (update_data_sheet st1 matched_row.gtt_id instruction,
       [KiteCall.modify matched_row.gtt_id instruction])
  | [] => (update_status st instruction.row_number StatusMessages.NO_MATCH_FOUND, [])
  | _ => (update_status st instruction.row_number StatusMessages.MULTIPLE_MATCHES, [])

/-- Embeds `GTTProcessor._handle_delete_action` (success path of the broker
call). -/
def handle_delete_action (instruction : GTTInstruction) (data_rows : List GTTDataRow)
    (st : SheetState) : SheetState × List KiteCall :=
  let found_matches := find_matching_rows instruction data_rows false
  match found_matches with
  | [matched_row] =>
    if matched_row.gtt_id = ("") then
      (update_status st instruction.row_number StatusMessages.NO_GTT_ID_DELETE, [])
    else
      let st1 := update_status st instruction.row_number StatusMessages.DELETED
      (remove_from_data_sheet st1 matched_row.gtt_id,
       [KiteCall.del matched_row.gtt_id])
  | [] => (update_status st instruction.row_number StatusMessages.NO_MATCH_FOUND, [])
  | _ => (update_status st instruction.row_number StatusMessages.MULTIPLE_MATCHES, [])

end GttProcessor

namespace KiteGtt

theorem sub_of_list_iff (n : List Char) : ∀ l : List Char, sub_of_list n l = true ↔ n <:+: l := by
  intro l
  induction l with
  | nil =>
    simp only [sub_of_list, List.isEmpty_iff]
    constructor
    · rintro rfl; exact List.infix_rfl
    · intro h
      exact List.eq_nil_of_infix_nil h
  | cons c t ih =>
    simp only [sub_of_list, Bool.or_eq_true, List.isPrefixOf_iff_prefix, ih,
      List.infix_cons_iff]

theorem sub_of_iff (needle hay : String) : sub_of needle hay = true ↔ needle.data <:+: hay.data := by
  simp only [sub_of, sub_of_list_iff]

theorem sub_of_eq_false_iff (needle hay : String) :
    sub_of needle hay = false ↔ ¬ needle.data <:+: hay.data := by
  rw [← Bool.not_eq_true, sub_of_iff]

end KiteGtt

namespace GttCore

open KiteGtt

/-- C4: `DataParser.determine_action` yields `UNKNOWN` on a missing or empty
raw action, and otherwise classifies by substring containment on the
stripped upper-cased string, with precedence PLACE (from `INSERT` or
`PLACE`) over `UPDATE` over `DELETE`, falling back to `UNKNOWN`. -/
theorem determine_action_spec :
    determine_action none = ActionType.UNKNOWN ∧
    determine_action (some ("")) = ActionType.UNKNOWN ∧
    ∀ s : String, s ≠ ("") →
      ((("INSERT").data <:+: (str_upper (str_trim s)).data ∨
        ("PLACE").data <:+: (str_upper (str_trim s)).data) →
          determine_action (some s) = ActionType.PLACE) ∧
      (¬ ("INSERT").data <:+: (str_upper (str_trim s)).data →
       ¬ ("PLACE").data <:+: (str_upper (str_trim s)).data →
       ("UPDATE").data <:+: (str_upper (str_trim s)).data →
          determine_action (some s) = ActionType.UPDATE) ∧
      (¬ ("INSERT").data <:+: (str_upper (str_trim s)).data →
       ¬ ("PLACE").data <:+: (str_upper (str_trim s)).data →
       ¬ ("UPDATE").data <:+: (str_upper (str_trim s)).data →
       ("DELETE").data <:+: (str_upper (str_trim s)).data →
          determine_action (some s) = ActionType.DELETE) ∧
      (¬ ("INSERT").data <:+: (str_upper (str_trim s)).data →
       ¬ ("PLACE").data <:+: (str_upper (str_trim s)).data →
       ¬ ("UPDATE").data <:+: (str_upper (str_trim s)).data →
       ¬ ("DELETE").data <:+: (str_upper (str_trim s)).data →
          determine_action (some s) = ActionType.UNKNOWN) := by
  refine ⟨rfl, rfl, ?_⟩
  intro s hs
  simp only [determine_action, if_neg hs]
  refine ⟨?_, ?_, ?_, ?_⟩
  · intro h
    have hc : (sub_of ("INSERT") (str_upper (str_trim s)) ||
        sub_of ("PLACE") (str_upper (str_trim s))) = true := by
      rcases h with h | h
      · simp [sub_of_iff, h]
      · simp [sub_of_iff, h]
    simp [hc]
  · intro h1 h2 h3
    have hc : (sub_of ("INSERT") (str_upper (str_trim s)) ||
        sub_of ("PLACE") (str_upper (str_trim s))) = false := by
      simp only [Bool.or_eq_false_iff]
      exact ⟨(sub_of_eq_false_iff _ _).mpr h1, (sub_of_eq_false_iff _ _).mpr h2⟩
    have hu : sub_of ("UPDATE") (str_upper (str_trim s)) = true := by
      simpa [sub_of_iff] using h3
    simp [hc, hu]
  · intro h1 h2 h3 h4
    have hc : (sub_of ("INSERT") (str_upper (str_trim s)) ||
        sub_of ("PLACE") (str_upper (str_trim s))) = false := by
      simp only [Bool.or_eq_false_iff]
      exact ⟨(sub_of_eq_false_iff _ _).mpr h1, (sub_of_eq_false_iff _ _).mpr h2⟩
    have hu : sub_of ("UPDATE") (str_upper (str_trim s)) = false :=
      (sub_of_eq_false_iff _ _).mpr h3
    have hd : sub_of ("DELETE") (str_upper (str_trim s)) = true := by
      simpa [sub_of_iff] using h4
    simp [hc, hu, hd]
  · intro h1 h2 h3 h4
    have hc : (sub_of ("INSERT") (str_upper (str_trim s)) ||
        sub_of ("PLACE") (str_upper (str_trim s))) = false := by
      simp only [Bool.or_eq_false_iff]
      exact ⟨(sub_of_eq_false_iff _ _).mpr h1, (sub_of_eq_false_iff _ _).mpr h2⟩
    have hu : sub_of ("UPDATE") (str_upper (str_trim s)) = false :=
      (sub_of_eq_false_iff _ _).mpr h3
    have hd : sub_of ("DELETE") (str_upper (str_trim s)) = false :=
      (sub_of_eq_false_iff _ _).mpr h4
    simp [hc, hu, hd]

/-- Witness for C4: on the raw action `" update/delete row "` the parser
returns `UPDATE` (PLACE keywords absent, UPDATE present). -/
theorem determine_action_spec_witness :
    (" update/delete row" : String) ≠ ("") ∧
    determine_action (some (" update/delete row")) = ActionType.UPDATE :=
  ⟨by decide,
   ((determine_action_spec.2.2 (" update/delete row") (by decide)).2.1
     (by decide) (by decide) (by decide))⟩

end GttCore

namespace GttCore

open KiteGtt

/-- Counterexample for C5: the raw type `"rtp_buy"` normalizes to
`"RTP_BUY"`, but its stripped upper-cased form `"RTP_BUY"` normalizes to
`"BUY"` — the keyword containment tests run on the raw string, so
normalization is not invariant under letter case. -/
theorem normalize_for_matching_case_counterexample :
    ¬ (normalize_for_matching (some ("rtp_buy")) =
       normalize_for_matching (some (str_upper (str_trim ("rtp_buy"))))) := by
  decide

/-- C5 (amended): `normalize_for_matching` always returns `"BUY"`,
`"SELL"`, or the cleaned (stripped, upper-cased) raw type; but because the
keyword tests inspect the raw string, the result is not invariant under
case or surrounding whitespace of the raw type. -/
theorem normalize_for_matching_range (s : String) :
    normalize_for_matching (some s) = ("BUY") ∨
    normalize_for_matching (some s) = ("SELL") ∨
    normalize_for_matching (some s) = str_upper (str_trim s) := by
  simp only [normalize_for_matching]
  split_ifs with h1 h2 h3
  · exact Or.inl rfl
  · exact Or.inr (Or.inl rfl)
  · exact Or.inr (Or.inl rfl)
  · exact Or.inr (Or.inr rfl)

/-- C10: `should_update_gtt` returns `False` exactly when the stored row's
units equal the instruction's units and its stored price equals the
instruction's tick-adjusted limit price (`gtt_price + tick_size` when the
normalized type is BUY, `gtt_price - tick_size` for every other type); and
the comparison is against the limit price, not the raw trigger price: a row
agreeing with the instruction on units and trigger price can still require
an update. -/
theorem should_update_gtt_spec :
    (∀ (instruction : GTTInstruction) (existing_data : GTTDataRow),
      should_update_gtt instruction existing_data = false ↔
        (existing_data.units = instruction.units ∧
         existing_data.gtt_price = instruction.gtt_price +
           (if normalize_for_matching (some instruction.type) = ("BUY")
            then instruction.tick_size else - instruction.tick_size))) ∧
    (should_update_gtt
        { ticker := ("NSE:ABC"), type := ("X BUY"), units := 5, gtt_price := 100,
          live_price := 0, tick_size := 1, action := ActionType.PLACE,
          method := (""), gtt_date := (""), row_number := 2 }
        { ticker := ("NSE:ABC"), type := ("X BUY"), units := 5, gtt_price := 100,
          gtt_date := (""), gtt_id := ("123"), row_number := 2 } = true ∧
      (5 : Int) = 5 ∧ (100 : Rat) = 100) := by
  constructor
  · intro instruction existing_data
    by_cases h : normalize_for_matching (some instruction.type) = ("BUY")
    · have hs : instruction.transaction_side = TransactionSide.BUY := by
        simp [GTTInstruction.transaction_side, h]
      simp [should_update_gtt, GTTInstruction.limit_price, hs, h, one_mul]
    · have hs : instruction.transaction_side = TransactionSide.SELL := by
        simp [GTTInstruction.transaction_side, h]
      simp [should_update_gtt, GTTInstruction.limit_price, hs, h, neg_one_mul]
  · refine ⟨?_, rfl, rfl⟩
    have hb : normalize_for_matching (some ("X BUY")) = ("BUY") := by decide
    simp [should_update_gtt, GTTInstruction.limit_price, GTTInstruction.transaction_side, hb]

end GttCore

namespace GttProcessor

open GttCore

theorem update_status_preserves_data (st : SheetState) (row_number : Nat) (status : String) :
    (update_status st row_number status).dataRows = st.dataRows := rfl

/-- C3: when a PLACE instruction already has an exact 4-element match, and
when an UPDATE or DELETE instruction matches a number of data rows other
than exactly one, the handler issues no broker-API call and leaves the data
sheet untouched; its only effect is appending the corresponding status
message (duplicate found / conflict: multiple matches / no match found) for
the instruction's row. -/
theorem gtt_conflict_branches_no_side_effect :
    (∀ (place_gtt : GTTInstruction → String) (instruction : GTTInstruction)
       (data_rows : List GTTDataRow) (st : SheetState),
      (∃ r ∈ data_rows, match_for_exact_comparison instruction r = true) →
        handle_place_action place_gtt instruction data_rows st =
          (update_status st instruction.row_number StatusMessages.DUPLICATE_FOUND, [])) ∧
    (∀ (instruction : GTTInstruction) (data_rows : List GTTDataRow) (st : SheetState),
      (find_matching_rows instruction data_rows true).length ≠ 1 →
        handle_update_action instruction data_rows st =
          (update_status st instruction.row_number
            (if 1 < (find_matching_rows instruction data_rows true).length
             then StatusMessages.MULTIPLE_MATCHES else StatusMessages.NO_MATCH_FOUND), [])) ∧
    (∀ (instruction : GTTInstruction) (data_rows : List GTTDataRow) (st : SheetState),
      (find_matching_rows instruction data_rows false).length ≠ 1 →
        handle_delete_action instruction data_rows st =
          (update_status st instruction.row_number
            (if 1 < (find_matching_rows instruction data_rows false).length
             then StatusMessages.MULTIPLE_MATCHES else StatusMessages.NO_MATCH_FOUND), [])) := by
  refine ⟨?_, ?_, ?_⟩
  · intro place_gtt instruction data_rows st h
    obtain ⟨r, hr, hm⟩ := h
    have hne : find_matching_rows instruction data_rows false ≠ [] := by
      intro hnil
      rw [find_matching_rows, if_neg (by simp)] at hnil
      rw [List.filter_eq_nil_iff] at hnil
      exact absurd hm (by simpa using hnil r hr)
    simp [handle_place_action, List.isEmpty_iff, hne]
  · intro instruction data_rows st h
    cases hm : find_matching_rows instruction data_rows true with
    | nil => simp [handle_update_action, hm]
    | cons a t =>
      cases t with
      | nil => rw [hm] at h; simp at h
      | cons b t2 =>
        have hlen : 1 < (a :: b :: t2).length := by simp
        simp only [handle_update_action, hm]
        rw [if_pos hlen]
  · intro instruction data_rows st h
    cases hm : find_matching_rows instruction data_rows false with
    | nil => simp [handle_delete_action, hm]
    | cons a t =>
      cases t with
      | nil => rw [hm] at h; simp at h
      | cons b t2 =>
        have hlen : 1 < (a :: b :: t2).length := by simp
        simp only [handle_delete_action, hm]
        rw [if_pos hlen]

/-- Witness for C3: a concrete PLACE instruction with an exactly matching
data row only records the duplicate-found status. -/
theorem gtt_conflict_branches_no_side_effect_witness :
    (∃ r ∈ [({ ticker := ("NSE:ABC"), type := ("SIP_REG"), units := 5, gtt_price := 100,
               gtt_date := (""), gtt_id := ("11"), row_number := 2 } : GTTDataRow)],
        match_for_exact_comparison
          { ticker := ("NSE:ABC"), type := ("SIP_REG"), units := 5, gtt_price := 100,
            live_price := 0, tick_size := 1, action := ActionType.PLACE,
            method := (""), gtt_date := (""), row_number := 7 } r = true) ∧
    handle_place_action (fun _ => ("99"))
        { ticker := ("NSE:ABC"), type := ("SIP_REG"), units := 5, gtt_price := 100,
          live_price := 0, tick_size := 1, action := ActionType.PLACE,
          method := (""), gtt_date := (""), row_number := 7 }
        [{ ticker := ("NSE:ABC"), type := ("SIP_REG"), units := 5, gtt_price := 100,
           gtt_date := (""), gtt_id := ("11"), row_number := 2 }]
        { statuses := [], dataRows := [] } =
      (update_status { statuses := [], dataRows := [] } 7 StatusMessages.DUPLICATE_FOUND, []) :=
  ⟨by decide,
   gtt_conflict_branches_no_side_effect.1 (fun _ => ("99")) _ _ _ (by decide)⟩

end GttProcessor

namespace DataTeleporter

theorem except_ok_eq_false {ε α : Type} (x : Except ε α) :
    except_ok x = false ↔ ∃ e, x = .error e := by
  cases x <;> simp [except_ok]

theorem gsheet_get_go_first_ok {ε : Type} (call : Nat → Except ε (Option (List Row))) :
    ∀ (k fp a : Nat) (v : Option (List Row)), k ≤ fp → call (a + k) = .ok v →
      (∀ j, j < k → except_ok (call (a + j)) = false) →
      gsheet_get_go call a fp = .ok (v.getD []) := by
  intro k
  induction k with
  | zero =>
    intro fp a v _ hok _
    rw [Nat.add_zero] at hok
    cases fp with
    | zero => simp [gsheet_get_go, hok, Except.map]
    | succ n => simp [gsheet_get_go, hok]
  | succ k ih =>
    intro fp a v hk hok hfail
    have h0 : except_ok (call (a + 0)) = false := hfail 0 (Nat.succ_pos k)
    rw [Nat.add_zero] at h0
    obtain ⟨e, he⟩ := (except_ok_eq_false (call a)).mp h0
    cases fp with
    | zero => omega
    | succ n =>
      simp only [gsheet_get_go, he]
      exact ih n (a + 1) v (by omega)
        (by rw [show a + 1 + k = a + (k + 1) by omega]; exact hok)
        (fun j hj => by
          rw [show a + 1 + j = a + (j + 1) by omega]
          exact hfail (j + 1) (by omega))

theorem gsheet_get_go_all_fail {ε : Type} (call : Nat → Except ε (Option (List Row))) :
    ∀ (fp a : Nat), (∀ j, j < fp → except_ok (call (a + j)) = false) →
      gsheet_get_go call a fp = (call (a + fp)).map (fun v => v.getD []) := by
  intro fp
  induction fp with
  | zero => intro a _; simp [gsheet_get_go]
  | succ n ih =>
    intro a h
    have h0 : except_ok (call (a + 0)) = false := h 0 (Nat.succ_pos n)
    rw [Nat.add_zero] at h0
    obtain ⟨e, he⟩ := (except_ok_eq_false (call a)).mp h0
    simp only [gsheet_get_go, he]
    rw [ih (a + 1) (fun j hj => by
      rw [show a + 1 + j = a + (j + 1) by omega]
      exact h (j + 1) (by omega))]
    rw [show a + 1 + n = a + (n + 1) by omega]

theorem gsheet_get_go_congr {ε : Type} (call call2 : Nat → Except ε (Option (List Row))) :
    ∀ (fp a : Nat), (∀ j, j ≤ fp → call (a + j) = call2 (a + j)) →
      gsheet_get_go call a fp = gsheet_get_go call2 a fp := by
  intro fp
  induction fp with
  | zero =>
    intro a h
    have h0 := h 0 (by omega)
    rw [Nat.add_zero] at h0
    simp [gsheet_get_go, h0]
  | succ n ih =>
    intro a h
    have h0 := h 0 (by omega)
    rw [Nat.add_zero] at h0
    simp only [gsheet_get_go, h0]
    cases call2 a with
    | ok v => rfl
    | error e =>
      exact ih (a + 1) (fun j hj => by
        rw [show a + 1 + j = a + (j + 1) by omega]
        exact h (j + 1) (by omega))

theorem gsheet_update_go_first_ok {ε : Type} (call : Nat → Except ε Unit) :
    ∀ (k fp a : Nat), k ≤ fp → except_ok (call (a + k)) = true →
      (∀ j, j < k → except_ok (call (a + j)) = false) →
      gsheet_update_go call a fp = .ok () := by
  intro k
  induction k with
  | zero =>
    intro fp a _ hok _
    rw [Nat.add_zero] at hok
    have : call a = .ok () := by
      cases hc : call a with
      | ok u => cases u; rfl
      | error e => rw [hc] at hok; simp [except_ok] at hok
    cases fp with
    | zero => simp [gsheet_update_go, this]
    | succ n => simp [gsheet_update_go, this]
  | succ k ih =>
    intro fp a hk hok hfail
    have h0 : except_ok (call (a + 0)) = false := hfail 0 (Nat.succ_pos k)
    rw [Nat.add_zero] at h0
    obtain ⟨e, he⟩ := (except_ok_eq_false (call a)).mp h0
    cases fp with
    | zero => omega
    | succ n =>
      simp only [gsheet_update_go, he]
      exact ih n (a + 1) (by omega)
        (by rw [show a + 1 + k = a + (k + 1) by omega]; exact hok)
        (fun j hj => by
          rw [show a + 1 + j = a + (j + 1) by omega]
          exact hfail (j + 1) (by omega))

theorem gsheet_update_go_all_fail {ε : Type} (call : Nat → Except ε Unit) :
    ∀ (fp a : Nat), (∀ j, j < fp → except_ok (call (a + j)) = false) →
      gsheet_update_go call a fp = call (a + fp) := by
  intro fp
  induction fp with
  | zero => intro a _; simp [gsheet_update_go]
  | succ n ih =>
    intro a h
    have h0 : except_ok (call (a + 0)) = false := h 0 (Nat.succ_pos n)
    rw [Nat.add_zero] at h0
    obtain ⟨e, he⟩ := (except_ok_eq_false (call a)).mp h0
    simp only [gsheet_update_go, he]
    rw [ih (a + 1) (fun j hj => by
      rw [show a + 1 + j = a + (j + 1) by omega]
      exact h (j + 1) (by omega))]
    rw [show a + 1 + n = a + (n + 1) by omega]

theorem gsheet_update_go_congr {ε : Type} (call call2 : Nat → Except ε Unit) :
    ∀ (fp a : Nat), (∀ j, j ≤ fp → call (a + j) = call2 (a + j)) →
      gsheet_update_go call a fp = gsheet_update_go call2 a fp := by
  intro fp
  induction fp with
  | zero =>
    intro a h
    have h0 := h 0 (by omega)
    rw [Nat.add_zero] at h0
    simp [gsheet_update_go, h0]
  | succ n ih =>
    intro a h
    have h0 := h 0 (by omega)
    rw [Nat.add_zero] at h0
    simp only [gsheet_update_go, h0]
    cases call2 a with
    | ok v => rfl
    | error e =>
      exact ih (a + 1) (fun j hj => by
        rw [show a + 1 + j = a + (j + 1) by omega]
        exact h (j + 1) (by omega))

/-- C8: the retry wrappers `gsheet_get` / `gsheet_update` return the result
of the first attempt that succeeds; they consult at most the first
`MAX_RETRIES = 5` attempts; when the first four attempts fail the outcome
is exactly attempt 5's outcome, so an exception propagates iff all five
attempts fail and the exception is the last one caught; and the sleep
between failed attempts is bounded by the cap
`min(30, 2^(attempt-1))`, which grows monotonically and never exceeds 30
seconds. -/
theorem gsheet_retry_spec :
    (∀ (ε : Type) (call : Nat → Except ε (Option (List Row))) (k : Nat) (v : Option (List Row)),
      k < 5 → call (k + 1) = .ok v → (∀ j, j < k → except_ok (call (j + 1)) = false) →
      gsheet_get call = .ok (v.getD [])) ∧
    (∀ (ε : Type) (call : Nat → Except ε (Option (List Row))),
      (∀ j, j < 4 → except_ok (call (j + 1)) = false) →
      gsheet_get call = (call 5).map (fun v => v.getD [])) ∧
    (∀ (ε : Type) (call call2 : Nat → Except ε (Option (List Row))),
      (∀ j, 1 ≤ j → j ≤ 5 → call j = call2 j) → gsheet_get call = gsheet_get call2) ∧
    (∀ (ε : Type) (call : Nat → Except ε Unit) (k : Nat),
      k < 5 → except_ok (call (k + 1)) = true → (∀ j, j < k → except_ok (call (j + 1)) = false) →
      gsheet_update call = .ok ()) ∧
    (∀ (ε : Type) (call : Nat → Except ε Unit),
      (∀ j, j < 4 → except_ok (call (j + 1)) = false) → gsheet_update call = call 5) ∧
    (∀ (ε : Type) (call call2 : Nat → Except ε Unit),
      (∀ j, 1 ≤ j → j ≤ 5 → call j = call2 j) → gsheet_update call = gsheet_update call2) ∧
    (∀ attempt : Nat, backoff_cap attempt ≤ 30) ∧
    (∀ a b : Nat, a ≤ b → backoff_cap a ≤ backoff_cap b) := by
  refine ⟨?_, ?_, ?_, ?_, ?_, ?_, ?_, ?_⟩
  · intro ε call k v hk hok hfail
    exact gsheet_get_go_first_ok call k 4 1 v (by omega)
      (by rw [show 1 + k = k + 1 by omega]; exact hok)
      (fun j hj => by rw [show 1 + j = j + 1 by omega]; exact hfail j hj)
  · intro ε call h
    have := gsheet_get_go_all_fail call 4 1
      (fun j hj => by rw [show 1 + j = j + 1 by omega]; exact h j hj)
    simpa [gsheet_get, MAX_RETRIES] using this
  · intro ε call call2 h
    exact gsheet_get_go_congr call call2 4 1
      (fun j hj => h (1 + j) (by omega) (by omega))
  · intro ε call k hk hok hfail
    exact gsheet_update_go_first_ok call k 4 1 (by omega)
      (by rw [show 1 + k = k + 1 by omega]; exact hok)
      (fun j hj => by rw [show 1 + j = j + 1 by omega]; exact hfail j hj)
  · intro ε call h
    have := gsheet_update_go_all_fail call 4 1
      (fun j hj => by rw [show 1 + j = j + 1 by omega]; exact h j hj)
    simpa [gsheet_update, MAX_RETRIES] using this
  · intro ε call call2 h
    exact gsheet_update_go_congr call call2 4 1
      (fun j hj => h (1 + j) (by omega) (by omega))
  · intro attempt
    exact min_le_left _ _
  · intro a b hab
    unfold backoff_cap
    refine min_le_min le_rfl ?_
    rw [one_mul, one_mul]
    exact pow_le_pow_right₀ (by norm_num) (Nat.sub_le_sub_right hab 1)

/-- Witness for C8: with an oracle that fails every attempt with error
code 7, `gsheet_get` propagates error 7. -/
theorem gsheet_retry_spec_witness :
    (∀ j, j < 4 → except_ok ((fun _ => (Except.error 7 : Except Nat (Option (List Row)))) (j + 1)) = false) ∧
    gsheet_get (fun _ => (Except.error 7 : Except Nat (Option (List Row)))) = Except.error 7 :=
  ⟨by decide,
   (gsheet_retry_spec.2.1 Nat (fun _ => (Except.error 7 : Except Nat (Option (List Row))))
     (by decide)).trans rfl⟩

end DataTeleporter

namespace DataTeleporter

theorem scan_rows_nil_needed : ∀ (rows : List Row) (start : Nat) (found : FoundMap),
    scan_rows rows start [] found = (found, []) := by
  intro rows
  induction rows with
  | nil => intro start found; rfl
  | cons r rest ih =>
    intro start found
    simp only [scan_rows, List.not_mem_nil, if_neg, List.filter_nil]
    rw [if_neg (by simp)]
    exact ih (start + 1) found

theorem scan_rows_append : ∀ (xs ys : List Row) (start : Nat) (needed : List SheetKey) (found : FoundMap),
    scan_rows (xs ++ ys) start needed found =
      scan_rows ys (start + xs.length) (scan_rows xs start needed found).2
        (scan_rows xs start needed found).1 := by
  intro xs
  induction xs with
  | nil => intro ys start needed found; simp [scan_rows]
  | cons r rest ih =>
    intro ys start needed found
    simp only [List.cons_append, List.append_eq, scan_rows]
    by_cases h : row_key r ∈ needed
    · rw [if_pos h, if_pos h, ih]
      simp only [List.length_cons]
      rw [show start + 1 + rest.length = start + (rest.length + 1) by omega]
    · rw [if_neg h, if_neg h, ih]
      simp only [List.length_cons]
      rw [show start + 1 + rest.length = start + (rest.length + 1) by omega]

theorem alookup_found_insert_self : ∀ (found : FoundMap) (k : SheetKey) (i : Nat),
    alookup (found_insert found k i) k = some ((alookup found k).getD [] ++ [i]) := by
  intro found
  induction found with
  | nil => intro k i; simp [found_insert, alookup]
  | cons p t ih =>
    intro k i
    obtain ⟨k2, l⟩ := p
    by_cases h : k2 = k
    · subst h
      simp [found_insert, alookup]
    · simp only [found_insert, if_neg h, alookup]
      exact ih k i

theorem alookup_found_insert_ne : ∀ (found : FoundMap) (k k2 : SheetKey) (i : Nat), k2 ≠ k →
    alookup (found_insert found k i) k2 = alookup found k2 := by
  intro found
  induction found with
  | nil =>
    intro k k2 i hne
    simp only [found_insert, alookup]
    rw [if_neg (fun h2 => hne h2.symm)]
  | cons p t ih =>
    intro k k2 i hne
    obtain ⟨k3, l⟩ := p
    by_cases h : k3 = k
    · subst h
      simp only [found_insert, if_pos rfl, alookup]
      rw [if_neg (fun h2 => hne h2.symm), if_neg (fun h2 => hne h2.symm)]
    · simp only [found_insert, if_neg h, alookup]
      by_cases h2 : k3 = k2
      · rw [if_pos h2, if_pos h2]
      · rw [if_neg h2, if_neg h2]
        exact ih k k2 i hne

theorem scan_rows_found_lookup : ∀ (rows : List Row) (start : Nat) (needed : List SheetKey)
    (found : FoundMap) (k : SheetKey),
    (∀ k2 ∈ needed, alookup found k2 = none) →
    alookup (scan_rows rows start needed found).1 k =
      if k ∈ needed then
        (match first_idx k rows with
         | some j => some [start + j]
         | none => none)
      else alookup found k := by
  intro rows
  induction rows with
  | nil =>
    intro start needed found k hinv
    simp only [scan_rows, first_idx]
    split
    · exact hinv k (by assumption)
    · rfl
  | cons r rest ih =>
    intro start needed found k hinv
    simp only [scan_rows]
    by_cases h0 : row_key r ∈ needed
    · rw [if_pos h0]
      have hinv2 : ∀ k2 ∈ needed.filter (fun k2 => decide (k2 ≠ row_key r)),
          alookup (found_insert found (row_key r) start) k2 = none := by
        intro k2 hk2
        rw [List.mem_filter] at hk2
        obtain ⟨hk2m, hk2ne⟩ := hk2
        rw [decide_eq_true_eq] at hk2ne
        rw [alookup_found_insert_ne found (row_key r) k2 start hk2ne]
        exact hinv k2 hk2m
      rw [ih (start + 1) _ _ k hinv2]
      simp only [first_idx]
      by_cases hk : row_key r = k
      · have hnf : k ∉ needed.filter (fun k2 => decide (k2 ≠ row_key r)) := by
          simp [List.mem_filter, ← hk]
        rw [if_neg hnf, if_pos (hk ▸ h0), if_pos hk]
        rw [← hk, alookup_found_insert_self found (row_key r) start, hinv (row_key r) h0]
        simp
      · have hkne : k ≠ row_key r := fun hc => hk hc.symm
        rw [if_neg hk]
        by_cases hkm : k ∈ needed
        · have hmf : k ∈ needed.filter (fun k2 => decide (k2 ≠ row_key r)) := by
            simp [List.mem_filter, hkm, hkne]
          rw [if_pos hmf, if_pos hkm]
          cases hfi : first_idx k rest with
          | none => simp [hfi]
          | some j =>
            simp only [hfi, Option.map_some']
            rw [show start + 1 + j = start + (j + 1) by omega]
        · have hnf : k ∉ needed.filter (fun k2 => decide (k2 ≠ row_key r)) := by
            simp [List.mem_filter, hkm]
          rw [if_neg hnf, if_neg hkm]
          exact alookup_found_insert_ne found (row_key r) k start hkne
    · rw [if_neg h0]
      rw [ih (start + 1) _ _ k hinv]
      simp only [first_idx]
      by_cases hkm : k ∈ needed
      · have hk : row_key r ≠ k := fun hc => h0 (hc ▸ hkm)
        rw [if_pos hkm, if_pos hkm, if_neg hk]
        cases hfi : first_idx k rest with
        | none => simp [hfi]
        | some j =>
          simp only [hfi, Option.map_some']
          rw [show start + 1 + j = start + (j + 1) by omega]
      · rw [if_neg hkm, if_neg hkm]

theorem scan_rows_needed : ∀ (rows : List Row) (start : Nat) (needed : List SheetKey)
    (found : FoundMap),
    (scan_rows rows start needed found).2 = needed.filter (fun k => !key_occurs rows k) := by
  intro rows
  induction rows with
  | nil =>
    intro start needed found
    simp [scan_rows, key_occurs]
  | cons r rest ih =>
    intro start needed found
    simp only [scan_rows]
    by_cases h0 : row_key r ∈ needed
    · rw [if_pos h0, ih]
      rw [List.filter_filter]
      apply List.filter_congr
      intro k hk
      by_cases hkr : k = row_key r
      · subst hkr
        simp [key_occurs]
      · have hrk : ¬ row_key r = k := fun hc => hkr hc.symm
        simp [key_occurs, hkr, hrk]
    · rw [if_neg h0, ih]
      apply List.filter_congr
      intro k hk
      have hrk : ¬ row_key r = k := fun hc => h0 (hc ▸ hk)
      simp [key_occurs, hrk]

theorem first_idx_none_iff (k : SheetKey) : ∀ (l : List Row),
    first_idx k l = none ↔ ∀ r ∈ l, row_key r ≠ k := by
  intro l
  induction l with
  | nil => simp [first_idx]
  | cons r rest ih =>
    simp only [first_idx]
    by_cases h : row_key r = k
    · simp [h]
    · simp only [if_neg h, Option.map_eq_none', ih, List.mem_cons]
      constructor
      · intro ha r2 hr2
        rcases hr2 with rfl | hr2
        · exact h
        · exact ha r2 hr2
      · intro ha r2 hr2
        exact ha r2 (Or.inr hr2)

theorem first_idx_append (k : SheetKey) : ∀ (xs ys : List Row),
    first_idx k (xs ++ ys) =
      match first_idx k xs with
      | some j => some j
      | none => (first_idx k ys).map (· + xs.length) := by
  intro xs
  induction xs with
  | nil =>
    intro ys
    simp [first_idx]
  | cons r rest ih =>
    intro ys
    simp only [List.cons_append, List.append_eq, first_idx]
    by_cases h : row_key r = k
    · simp [h]
    · rw [if_neg h, if_neg h, ih ys]
      cases hfi : first_idx k rest with
      | some j => simp
      | none =>
        simp only []
        cases hfy : first_idx k ys with
        | none => simp
        | some j =>
          simp only [Option.map_none', Option.map_some', List.length_cons]
          rw [show j + rest.length + 1 = j + (rest.length + 1) by omega]

theorem first_idx_lt_length (k : SheetKey) : ∀ (l : List Row) (j : Nat),
    first_idx k l = some j → j < l.length := by
  intro l
  induction l with
  | nil => intro j h; simp [first_idx] at h
  | cons r rest ih =>
    intro j h
    simp only [first_idx] at h
    by_cases hr : row_key r = k
    · rw [if_pos hr] at h
      cases h
      simp
    · rw [if_neg hr] at h
      cases hfi : first_idx k rest with
      | none => rw [hfi] at h; simp at h
      | some j0 =>
        rw [hfi] at h
        simp only [Option.map_some', Option.some_inj] at h
        have := ih j0 hfi
        simp only [List.length_cons]
        omega

theorem first_idx_getElem (k : SheetKey) : ∀ (l : List Row) (j : Nat),
    first_idx k l = some j → ∃ r, l[j]? = some r ∧ row_key r = k := by
  intro l
  induction l with
  | nil => intro j h; simp [first_idx] at h
  | cons r rest ih =>
    intro j h
    simp only [first_idx] at h
    by_cases hr : row_key r = k
    · rw [if_pos hr] at h
      cases h
      exact ⟨r, by simp, hr⟩
    · rw [if_neg hr] at h
      cases hfi : first_idx k rest with
      | none => rw [hfi] at h; simp at h
      | some j0 =>
        rw [hfi] at h
        simp only [Option.map_some', Option.some_inj] at h
        obtain ⟨r2, hr2, hk2⟩ := ih j0 hfi
        refine ⟨r2, ?_, hk2⟩
        rw [← h]
        simpa using hr2

theorem first_idx_congr (k : SheetKey) : ∀ (l1 l2 : List Row),
    (∀ i : Nat, (l1[i]?).map row_key = (l2[i]?).map row_key) →
    first_idx k l1 = first_idx k l2 := by
  intro l1
  induction l1 with
  | nil =>
    intro l2 h
    cases l2 with
    | nil => rfl
    | cons r2 t2 =>
      have := h 0
      simp at this
  | cons r1 t1 ih =>
    intro l2 h
    cases l2 with
    | nil =>
      have := h 0
      simp at this
    | cons r2 t2 =>
      have h0 := h 0
      simp only [List.getElem?_cons_zero, Option.map_some', Option.some_inj] at h0
      simp only [first_idx, h0]
      rw [ih t2 (fun i => by simpa using h (i + 1))]

theorem fk_go_found (ps : Nat) (hps : 1 ≤ ps) : ∀ (fuel : Nat) (remaining : List Row)
    (start : Nat) (needed : List SheetKey) (found : FoundMap) (pages : Nat),
    remaining.length ≤ fuel →
    (fk_go ps fuel remaining start needed found pages).1 =
      (scan_rows remaining start needed found).1 := by
  intro fuel
  induction fuel with
  | zero =>
    intro remaining start needed found pages hlen
    have : remaining = [] := List.length_eq_zero.mp (by omega)
    subst this
    rfl
  | succ n ih =>
    intro remaining start needed found pages hlen
    cases hr : remaining with
    | nil => rfl
    | cons r rest =>
      cases hn : needed with
      | nil =>
        simp only [fk_go]
        rw [if_pos (by simp)]
        rw [scan_rows_nil_needed]
      | cons k1 nrest =>
        rw [← hr, ← hn]
        have hcond : ¬ ((remaining.isEmpty || needed.isEmpty) = true) := by
          rw [hr, hn]; simp
        simp only [fk_go]
        rw [if_neg hcond]
        have hscan : (scan_rows remaining start needed found).1 =
            (scan_rows (remaining.drop ps)
              (start + (remaining.take ps).length)
              (scan_rows (remaining.take ps) start needed found).2
              (scan_rows (remaining.take ps) start needed found).1).1 := by
          conv_lhs => rw [← List.take_append_drop ps remaining]
          rw [scan_rows_append]
        by_cases hemp : (scan_rows (remaining.take ps) start needed found).2.isEmpty = true
        · rw [if_pos hemp, hscan, List.isEmpty_iff.mp hemp, scan_rows_nil_needed]
        · rw [if_neg hemp]
          have hpos : 1 ≤ remaining.length := by rw [hr]; simp
          rw [ih (remaining.drop ps) (start + ps) _ _ (pages + 1)
            (by rw [List.length_drop]; omega)]
          rw [hscan]
          by_cases hd : remaining.length ≤ ps
          · have hde : remaining.drop ps = [] := List.drop_eq_nil_of_le hd
            rw [hde]
            rfl
          · have hte : (remaining.take ps).length = ps := by
              rw [List.length_take]
              omega
            rw [hte]

theorem find_keys_lookup (rows : List Row) (keys_set : List SheetKey) (page_size : Nat)
    (hps : 1 ≤ page_size) (k : SheetKey) :
    alookup (find_keys_in_sheet_paged rows keys_set page_size).1 k =
      if k ∈ keys_set then (first_idx k rows).map (fun j => [j + 1]) else none := by
  unfold find_keys_in_sheet_paged
  rw [if_neg (by omega)]
  rw [fk_go_found page_size hps rows.length rows 1 keys_set [] 0 le_rfl]
  rw [scan_rows_found_lookup rows 1 keys_set [] k (by intro k2 _; rfl)]
  by_cases hk : k ∈ keys_set
  · rw [if_pos hk, if_pos hk]
    cases hfi : first_idx k rows with
    | none => simp
    | some j =>
      simp only [Option.map_some']
      rw [show 1 + j = j + 1 by omega]
  · rw [if_neg hk, if_neg hk]
    rfl

theorem fk_go_pages_le (ps : Nat) (hps : 1 ≤ ps) : ∀ (fuel Q : Nat) (remaining : List Row)
    (start : Nat) (needed : List SheetKey) (found : FoundMap) (pages : Nat),
    remaining.length ≤ fuel →
    (∀ k ∈ needed, ∃ j, first_idx k remaining = some j ∧ j < Q * ps) →
    (fk_go ps fuel remaining start needed found pages).2 ≤ pages + Q := by
  intro fuel
  induction fuel with
  | zero =>
    intro Q remaining start needed found pages hlen hocc
    have : remaining = [] := List.length_eq_zero.mp (by omega)
    subst this
    simp [fk_go]
  | succ n ih =>
    intro Q remaining start needed found pages hlen hocc
    cases hr : remaining with
    | nil => simp [fk_go]
    | cons r rest =>
      cases hn : needed with
      | nil =>
        simp only [fk_go]
        rw [if_pos (by simp)]
        omega
      | cons k1 nrest =>
        rw [← hr, ← hn]
        have hcond : ¬ ((remaining.isEmpty || needed.isEmpty) = true) := by
          rw [hr, hn]; simp
        -- Q must be positive: k1 has an occurrence at an index below Q * ps
        obtain ⟨j1, hj1, hj1Q⟩ := hocc k1 (by rw [hn]; simp)
        have hQpos : 1 ≤ Q := by
          rcases Nat.eq_zero_or_pos Q with h | h
          · subst h; simp at hj1Q
          · exact h
        simp only [fk_go]
        rw [if_neg hcond]
        by_cases hemp : (scan_rows (remaining.take ps) start needed found).2.isEmpty = true
        · rw [if_pos hemp]
          omega
        · rw [if_neg hemp]
          obtain ⟨q, rfl⟩ : ∃ q, Q = q + 1 := ⟨Q - 1, by omega⟩
          have hpos : 1 ≤ remaining.length := by rw [hr]; simp
          -- remaining must be longer than one page: otherwise every needed key
          -- would be found in this page and the scan would have emptied `needed`
          have hocc2 : ∀ k ∈ (scan_rows (remaining.take ps) start needed found).2,
              ∃ j, first_idx k (remaining.drop ps) = some j ∧ j < q * ps := by
            intro k hkmem
            rw [scan_rows_needed] at hkmem
            rw [List.mem_filter] at hkmem
            obtain ⟨hkneed, hknotocc⟩ := hkmem
            obtain ⟨j, hj, hjQ⟩ := hocc k hkneed
            have hnotin : first_idx k (remaining.take ps) = none := by
              rw [first_idx_none_iff]
              intro r2 hr2 hc
              rw [Bool.not_eq_true'] at hknotocc
              have : key_occurs (remaining.take ps) k = true := by
                rw [key_occurs, List.any_eq_true]
                exact ⟨r2, hr2, by simp [hc]⟩
              rw [hknotocc] at this
              exact Bool.false_ne_true this
            have hsplit := first_idx_append k (remaining.take ps) (remaining.drop ps)
            rw [List.take_append_drop] at hsplit
            rw [hsplit, hnotin] at hj
            cases hfd : first_idx k (remaining.drop ps) with
            | none => rw [hfd] at hj; simp at hj
            | some j0 =>
              rw [hfd] at hj
              simp only [Option.map_some', Option.some_inj] at hj
              refine ⟨j0, rfl, ?_⟩
              have htlen : ps ≤ remaining.length := by
                by_contra hcon
                have : remaining.drop ps = [] := List.drop_eq_nil_of_le (by omega)
                rw [this] at hfd
                simp [first_idx] at hfd
              have htake : (remaining.take ps).length = ps := by
                rw [List.length_take]; omega
              rw [htake] at hj
              have : j0 + ps < (q + 1) * ps := by omega
              rw [Nat.succ_mul] at this
              omega
          have := ih q (remaining.drop ps) (start + ps)
            (scan_rows (remaining.take ps) start needed found).2
            (scan_rows (remaining.take ps) start needed found).1
            (pages + 1) (by rw [List.length_drop]; omega) hocc2
          omega

/-- C2: `find_keys_in_sheet_paged` maps exactly the requested keys that
occur in the sheet (by normalized first-two-column key) to the singleton
list of the 1-based index of their first occurrence; the paged traversal
returns the same map as a single linear scan for every positive page size;
and if every requested key occurs within the first `Q` pages, at most `Q`
pages are read. -/
theorem find_keys_in_sheet_paged_spec (rows : List Row) (keys_set : List SheetKey)
    (page_size : Nat) (hps : 1 ≤ page_size) :
    (∀ k : SheetKey,
      alookup (find_keys_in_sheet_paged rows keys_set page_size).1 k =
        if k ∈ keys_set then (first_occurrence rows k).map (fun i => [i]) else none) ∧
    (find_keys_in_sheet_paged rows keys_set page_size).1 = linear_scan rows keys_set ∧
    (∀ Q : Nat,
      (∀ k ∈ keys_set, ∃ j, first_idx k rows = some j ∧ j < Q * page_size) →
      (find_keys_in_sheet_paged rows keys_set page_size).2 ≤ Q) := by
  refine ⟨?_, ?_, ?_⟩
  · intro k
    rw [find_keys_lookup rows keys_set page_size hps k]
    by_cases hk : k ∈ keys_set
    · rw [if_pos hk, if_pos hk, first_occurrence]
      cases hfi : first_idx k rows <;> simp
    · rw [if_neg hk, if_neg hk]
  · unfold find_keys_in_sheet_paged linear_scan
    rw [if_neg (by omega)]
    exact fk_go_found page_size hps rows.length rows 1 keys_set [] 0 le_rfl
  · intro Q hocc
    unfold find_keys_in_sheet_paged
    rw [if_neg (by omega)]
    have := fk_go_pages_le page_size hps rows.length Q rows 1 keys_set [] 0 le_rfl hocc
    omega

/-- Witness for C2: on a concrete 3-row sheet with one requested key present
and one absent, the present key maps to the singleton of its first
occurrence row. -/
theorem find_keys_in_sheet_paged_spec_witness :
    (1 : Nat) ≤ 2 ∧
    alookup (find_keys_in_sheet_paged
        [[(" 2024-01-02 "), ("INFY")], [("2024-01-02"), ("INFY")], [("x"), ("y")]]
        [(("2024-01-02"), ("INFY")), (("q"), ("r"))] 2).1 ((("2024-01-02"), ("INFY"))) =
      some [1] :=
  ⟨by decide,
   ((find_keys_in_sheet_paged_spec
      [[(" 2024-01-02 "), ("INFY")], [("2024-01-02"), ("INFY")], [("x"), ("y")]]
      [(("2024-01-02"), ("INFY")), (("q"), ("r"))] 2 (by decide)).1
      ((("2024-01-02"), ("INFY")))).trans (by decide)⟩

theorem dedup_singleton (x : Nat) : ([x] : List Nat).dedup = [x] := by
  rw [List.dedup_cons_of_not_mem (by simp)]
  rfl

theorem build_plan_eq (dest : List Row) (found : FoundMap) :
    ∀ (payload : List (SheetKey × Row)),
    (∀ p ∈ payload, alookup found p.1 = (first_idx p.1 dest).map (fun j => [j + 1])) →
    build_plan found payload = ⟨ovw_of payload dest, app_of payload dest, []⟩ := by
  intro payload
  induction payload with
  | nil => intro _; rfl
  | cons p rest ih =>
    intro h
    obtain ⟨k, r⟩ := p
    have hk := h (k, r) (List.mem_cons_self _ _)
    simp only at hk
    simp only [build_plan, hk]
    rw [ih (fun q hq => h q (List.mem_cons_of_mem _ hq))]
    cases hfi : first_idx k dest with
    | none =>
      simp only [hfi, Option.map_none', Option.getD_none]
      rw [if_pos (by rfl)]
      simp [ovw_of, app_of, hfi]
    | some j =>
      simp only [hfi, Option.map_some', Option.getD_some]
      rw [if_neg (by simp)]
      rw [dedup_singleton]
      simp only [sort_by, sorted_insert]
      simp [ovw_of, app_of, hfi, List.filterMap_cons]

theorem replicate_unfold (page_size : Nat) (hps : 1 ≤ page_size)
    (payload : List (SheetKey × Row)) (dest : List Row) :
    replicate_bank_new_to_dest page_size payload dest =
      apply_overwrites dest (ovw_of payload dest) ++ app_of payload dest := by
  have hplan : build_plan ((find_keys_in_sheet_paged dest (payload.map Prod.fst) page_size).1) payload =
      ⟨ovw_of payload dest, app_of payload dest, []⟩ := by
    apply build_plan_eq
    intro p hp
    rw [find_keys_lookup dest (payload.map Prod.fst) page_size hps p.1]
    rw [if_pos (List.mem_map_of_mem Prod.fst hp)]
  simp only [replicate_bank_new_to_dest]
  rw [hplan]
  rfl

theorem apply_overwrites_length : ∀ (u : List (Nat × Row)) (dest : List Row),
    (apply_overwrites dest u).length = dest.length := by
  intro u
  induction u with
  | nil => intro dest; rfl
  | cons p t ih =>
    intro dest
    simp only [apply_overwrites, List.foldl_cons]
    rw [show (List.foldl (fun d p => d.set (p.1 - 1) p.2) (dest.set (p.1 - 1) p.2) t) =
      apply_overwrites (dest.set (p.1 - 1) p.2) t from rfl]
    rw [ih]
    exact List.length_set dest (p.1 - 1) p.2

theorem apply_overwrites_cons (p : Nat × Row) (t : List (Nat × Row)) (dest : List Row) :
    apply_overwrites dest (p :: t) = apply_overwrites (dest.set (p.1 - 1) p.2) t := rfl

theorem apply_overwrites_get_ne : ∀ (u : List (Nat × Row)) (dest : List Row) (i : Nat),
    (∀ p ∈ u, p.1 - 1 ≠ i) → (apply_overwrites dest u)[i]? = dest[i]? := by
  intro u
  induction u with
  | nil => intro dest i _; rfl
  | cons p t ih =>
    intro dest i h
    rw [apply_overwrites_cons]
    rw [ih _ i (fun q hq => h q (List.mem_cons_of_mem _ hq))]
    rw [List.getElem?_set]
    rw [if_neg (h p (List.mem_cons_self _ _))]

theorem apply_overwrites_get_mem : ∀ (u : List (Nat × Row)) (dest : List Row) (i : Nat) (r : Row),
    (∀ p ∈ u, 1 ≤ p.1) → (u.map Prod.fst).Nodup → (i + 1, r) ∈ u → i < dest.length →
    (apply_overwrites dest u)[i]? = some r := by
  intro u
  induction u with
  | nil => intro dest i r _ _ hmem _; simp at hmem
  | cons p t ih =>
    intro dest i r hpos hnd hmem hlt
    rw [List.map_cons, List.nodup_cons] at hnd
    obtain ⟨hnotin, hndt⟩ := hnd
    rw [apply_overwrites_cons]
    rcases List.mem_cons.mp hmem with heq | hmem2
    · have hp1 : p.1 = i + 1 := by rw [← heq]
      have hp2 : p.2 = r := by rw [← heq]
      have hne : ∀ q ∈ t, q.1 - 1 ≠ i := by
        intro q hq hc
        have hq1 : q.1 ≠ i + 1 := by
          intro hq1
          exact hnotin (hp1 ▸ hq1 ▸ List.mem_map_of_mem Prod.fst hq)
        have hqpos : 1 ≤ q.1 := hpos q (List.mem_cons_of_mem _ hq)
        omega
      rw [apply_overwrites_get_ne t _ i hne]
      rw [hp1, hp2]
      simp only [Nat.add_sub_cancel]
      exact List.getElem?_set_self hlt
    · exact ih _ i r (fun q hq => hpos q (List.mem_cons_of_mem _ hq)) hndt hmem2
        (by rw [List.length_set]; exact hlt)

theorem list_set_self : ∀ (l : List Row) (i : Nat) (a : Row), l[i]? = some a → l.set i a = l := by
  intro l
  induction l with
  | nil => intro i a h; simp at h
  | cons x t ih =>
    intro i a h
    cases i with
    | zero =>
      simp only [List.getElem?_cons_zero, Option.some_inj] at h
      rw [← h]
      rfl
    | succ n =>
      simp only [List.getElem?_cons_succ] at h
      simp only [List.set_cons_succ]
      rw [ih n a h]

theorem apply_overwrites_self : ∀ (u : List (Nat × Row)) (dest : List Row),
    (∀ q ∈ u, dest[q.1 - 1]? = some q.2) → apply_overwrites dest u = dest := by
  intro u
  induction u with
  | nil => intro dest _; rfl
  | cons p t ih =>
    intro dest h
    rw [apply_overwrites_cons, list_set_self dest (p.1 - 1) p.2 (h p (List.mem_cons_self _ _))]
    exact ih dest (fun q hq => h q (List.mem_cons_of_mem _ hq))

theorem apply_overwrites_key_pres : ∀ (u : List (Nat × Row)) (dest : List Row),
    (∀ q ∈ u, ∃ j, q.1 = j + 1 ∧ ∃ r0, dest[j]? = some r0 ∧ row_key r0 = row_key q.2) →
    ∀ i : Nat, ((apply_overwrites dest u)[i]?).map row_key = (dest[i]?).map row_key := by
  intro u
  induction u with
  | nil => intro dest _ i; rfl
  | cons p t ih =>
    intro dest h i
    obtain ⟨j, hj1, r0, hr0, hkey⟩ := h p (List.mem_cons_self _ _)
    have hjlt : j < dest.length := (List.getElem?_eq_some.mp hr0).1
    have hstep : ∀ i2 : Nat, ((dest.set (p.1 - 1) p.2)[i2]?).map row_key = (dest[i2]?).map row_key := by
      intro i2
      rw [List.getElem?_set]
      by_cases hij : p.1 - 1 = i2
      · rw [if_pos hij]
        have hji : j = i2 := by omega
        rw [if_pos (by omega)]
        rw [← hji, hr0]
        simp [hkey]
      · rw [if_neg hij]
    have hnext : ∀ q ∈ t, ∃ j2, q.1 = j2 + 1 ∧
        ∃ r1, (dest.set (p.1 - 1) p.2)[j2]? = some r1 ∧ row_key r1 = row_key q.2 := by
      intro q hq
      obtain ⟨j2, hj2, r1, hr1, hk1⟩ := h q (List.mem_cons_of_mem _ hq)
      have hmap := hstep j2
      rw [hr1] at hmap
      cases hsq : (dest.set (p.1 - 1) p.2)[j2]? with
      | none => rw [hsq] at hmap; simp at hmap
      | some r2 =>
        rw [hsq] at hmap
        simp only [Option.map_some', Option.some_inj] at hmap
        exact ⟨j2, hj2, r2, hsq, hmap.trans hk1⟩
    rw [apply_overwrites_cons]
    exact (ih _ hnext i).trans (hstep i)

theorem ovw_of_pos (payload : List (SheetKey × Row)) (dest : List Row) :
    ∀ q ∈ ovw_of payload dest, 1 ≤ q.1 := by
  intro q hq
  rw [ovw_of, List.mem_filterMap] at hq
  obtain ⟨p, hp, hfq⟩ := hq
  cases hfi : first_idx p.1 dest with
  | none => rw [hfi] at hfq; simp at hfq
  | some j =>
    rw [hfi] at hfq
    simp only [Option.map_some', Option.some_inj] at hfq
    rw [← hfq]
    omega

theorem ovw_of_key_pres (payload : List (SheetKey × Row)) (dest : List Row)
    (hkc : ∀ p ∈ payload, row_key p.2 = p.1) :
    ∀ i : Nat, ((apply_overwrites dest (ovw_of payload dest))[i]?).map row_key =
      (dest[i]?).map row_key := by
  apply apply_overwrites_key_pres
  intro q hq
  rw [ovw_of, List.mem_filterMap] at hq
  obtain ⟨p, hp, hfq⟩ := hq
  cases hfi : first_idx p.1 dest with
  | none => rw [hfi] at hfq; simp at hfq
  | some j =>
    rw [hfi] at hfq
    simp only [Option.map_some', Option.some_inj] at hfq
    obtain ⟨r0, hr0, hk0⟩ := first_idx_getElem p.1 dest j hfi
    refine ⟨j, by rw [← hfq], r0, hr0, ?_⟩
    rw [hk0, ← hfq]
    exact (hkc p hp).symm

theorem ovw_of_nodup (dest : List Row) : ∀ (payload : List (SheetKey × Row)),
    (payload.map Prod.fst).Nodup → ((ovw_of payload dest).map Prod.fst).Nodup := by
  intro payload
  induction payload with
  | nil => intro _; simp [ovw_of]
  | cons p rest ih =>
    intro hnd
    rw [List.map_cons, List.nodup_cons] at hnd
    obtain ⟨hpn, hndr⟩ := hnd
    simp only [ovw_of, List.filterMap_cons]
    cases hfi : first_idx p.1 dest with
    | none => exact ih hndr
    | some j =>
      simp only [Option.map_some', List.map_cons, List.nodup_cons]
      refine ⟨?_, ih hndr⟩
      intro hmem
      rw [List.mem_map] at hmem
      obtain ⟨q, hq, hq1⟩ := hmem
      rw [List.mem_filterMap] at hq
      obtain ⟨p2, hp2, hfq2⟩ := hq
      cases hfi2 : first_idx p2.1 dest with
      | none => rw [hfi2] at hfq2; simp at hfq2
      | some j2 =>
        rw [hfi2] at hfq2
        simp only [Option.map_some', Option.some_inj] at hfq2
        have hj2 : j2 = j := by
          have : q.1 = j2 + 1 := by rw [← hfq2]
          omega
        obtain ⟨r0, hr0, hk0⟩ := first_idx_getElem p.1 dest j hfi
        obtain ⟨r1, hr1, hk1⟩ := first_idx_getElem p2.1 dest j2 hfi2
        rw [hj2, hr0] at hr1
        have : p.1 = p2.1 := by
          rw [← hk0, ← hk1]
          simp only [Option.some_inj] at hr1
          rw [hr1]
        exact hpn (this ▸ List.mem_map_of_mem Prod.fst hp2)

theorem app_of_mem_first : ∀ (payload : List (SheetKey × Row)) (dest : List Row)
    (k : SheetKey) (r : Row),
    (payload.map Prod.fst).Nodup → (∀ p ∈ payload, row_key p.2 = p.1) →
    (k, r) ∈ payload → first_idx k dest = none →
    ∃ m, first_idx k (app_of payload dest) = some m ∧ (app_of payload dest)[m]? = some r := by
  intro payload
  induction payload with
  | nil => intro dest k r _ _ hmem _; simp at hmem
  | cons p rest ih =>
    intro dest k r hnd hkc hmem habs
    rw [List.map_cons, List.nodup_cons] at hnd
    obtain ⟨hpn, hndr⟩ := hnd
    rcases List.mem_cons.mp hmem with heq | hm2
    · have hp1 : p.1 = k := by rw [← heq]
      have hp2 : p.2 = r := by rw [← heq]
      have hkr : row_key r = k := by
        have := hkc p (List.mem_cons_self _ _)
        rw [hp1, hp2] at this
        exact this
      have happ : app_of (p :: rest) dest = r :: app_of rest dest := by
        simp [app_of, List.filterMap_cons, hp1, hp2, habs]
      rw [happ]
      refine ⟨0, ?_, by simp⟩
      simp [first_idx, hkr]
    · have hkrest : k ∈ rest.map Prod.fst := by
        rw [List.mem_map]
        exact ⟨(k, r), hm2, rfl⟩
      have hkne : p.1 ≠ k := fun hc => hpn (hc ▸ hkrest)
      obtain ⟨m, hm1, hm2g⟩ := ih dest k r hndr
        (fun q hq => hkc q (List.mem_cons_of_mem _ hq)) hm2 habs
      simp only [app_of, List.filterMap_cons]
      cases hfi : first_idx p.1 dest with
      | none =>
        simp only [if_pos rfl]
        have hkp : row_key p.2 = p.1 := hkc p (List.mem_cons_self _ _)
        refine ⟨m + 1, ?_, by simpa using hm2g⟩
        simp only [first_idx, hkp]
        rw [if_neg hkne]
        rw [show first_idx k (List.filterMap
          (fun p => if first_idx p.1 dest = none then some p.2 else none) rest) =
          first_idx k (app_of rest dest) from rfl]
        rw [hm1]
        rfl
      | some j =>
        rw [if_neg (by simp [hfi])]
        exact ⟨m, hm1, hm2g⟩

theorem replicate_result_canonical (page_size : Nat) (hps : 1 ≤ page_size)
    (payload : List (SheetKey × Row)) (dest : List Row)
    (hnd : (payload.map Prod.fst).Nodup) (hkc : ∀ p ∈ payload, row_key p.2 = p.1) :
    ∀ p ∈ payload, ∃ jR,
      first_idx p.1 (replicate_bank_new_to_dest page_size payload dest) = some jR ∧
      (replicate_bank_new_to_dest page_size payload dest)[jR]? = some p.2 := by
  intro p hp
  rw [replicate_unfold page_size hps payload dest]
  have hPlen : (apply_overwrites dest (ovw_of payload dest)).length = dest.length :=
    apply_overwrites_length (ovw_of payload dest) dest
  have hPkeys := ovw_of_key_pres payload dest hkc
  have hPfi : ∀ k2, first_idx k2 (apply_overwrites dest (ovw_of payload dest)) =
      first_idx k2 dest :=
    fun k2 => first_idx_congr k2 _ dest hPkeys
  cases hfi : first_idx p.1 dest with
  | some j =>
    have hjlt : j < dest.length := first_idx_lt_length p.1 dest j hfi
    refine ⟨j, ?_, ?_⟩
    · rw [first_idx_append, hPfi, hfi]
    · rw [List.getElem?_append]
      rw [if_pos (by omega)]
      exact apply_overwrites_get_mem (ovw_of payload dest) dest j p.2
        (ovw_of_pos payload dest) (ovw_of_nodup dest payload hnd)
        (by
          rw [ovw_of, List.mem_filterMap]
          exact ⟨p, hp, by rw [hfi]; rfl⟩)
        hjlt
  | none =>
    obtain ⟨m, hm1, hm2⟩ := app_of_mem_first payload dest p.1 p.2 hnd hkc
      (by
        obtain ⟨k0, r0⟩ := p
        exact hp) hfi
    refine ⟨m + (apply_overwrites dest (ovw_of payload dest)).length, ?_, ?_⟩
    · rw [first_idx_append, hPfi, hfi, hm1]
      rfl
    · rw [List.getElem?_append]
      rw [if_neg (by omega)]
      rw [show m + (apply_overwrites dest (ovw_of payload dest)).length -
        (apply_overwrites dest (ovw_of payload dest)).length = m by omega]
      exact hm2

/-- C1: the key-based upsert into BANK_FINAL is idempotent: applying the
destination phase of `replicate_bank_new_to_dest` twice with the same
payload produces the same ledger contents as applying it once.  The
hypotheses state what the pipeline guarantees about its payload: payload
keys are distinct (`payload_map` is a dict) and each payload row carries
its own key in columns A:B (the rows were located in BANK_NEW by that
key). -/
theorem replicate_bank_new_to_dest_idempotent (page_size : Nat)
    (payload : List (SheetKey × Row)) (dest : List Row) (hps : 1 ≤ page_size)
    (hnd : (payload.map Prod.fst).Nodup) (hkc : ∀ p ∈ payload, row_key p.2 = p.1) :
    replicate_bank_new_to_dest page_size payload
        (replicate_bank_new_to_dest page_size payload dest) =
      replicate_bank_new_to_dest page_size payload dest := by
  have hmain := replicate_result_canonical page_size hps payload dest hnd hkc
  rw [replicate_unfold page_size hps payload (replicate_bank_new_to_dest page_size payload dest)]
  have happ : app_of payload (replicate_bank_new_to_dest page_size payload dest) = [] := by
    rw [app_of, List.filterMap_eq_nil_iff]
    intro p hp
    obtain ⟨jR, hj, _⟩ := hmain p hp
    simp [hj]
  have hovw : ∀ q ∈ ovw_of payload (replicate_bank_new_to_dest page_size payload dest),
      (replicate_bank_new_to_dest page_size payload dest)[q.1 - 1]? = some q.2 := by
    intro q hq
    rw [ovw_of, List.mem_filterMap] at hq
    obtain ⟨p, hp, hfq⟩ := hq
    obtain ⟨jR, hj, hcontent⟩ := hmain p hp
    rw [hj] at hfq
    simp only [Option.map_some', Option.some_inj] at hfq
    rw [← hfq]
    simpa using hcontent
  rw [apply_overwrites_self _ _ hovw, happ, List.append_nil]

/-- Witness for C1: a concrete payload of one present and one absent key
applied twice to a concrete three-row ledger equals one application. -/
theorem replicate_bank_new_to_dest_idempotent_witness :
    (1 : Nat) ≤ 2 ∧
    replicate_bank_new_to_dest 2
        [((("2024-01-02"), ("INFY")), [("2024-01-02"), ("INFY"), ("10")]),
         ((("2024-01-03"), ("TCS")), [("2024-01-03"), ("TCS"), ("20")])]
        (replicate_bank_new_to_dest 2
          [((("2024-01-02"), ("INFY")), [("2024-01-02"), ("INFY"), ("10")]),
           ((("2024-01-03"), ("TCS")), [("2024-01-03"), ("TCS"), ("20")])]
          [[("x"), ("y"), ("1")], [("2024-01-02"), ("INFY"), ("9")], [("z"), ("w")]]) =
      replicate_bank_new_to_dest 2
        [((("2024-01-02"), ("INFY")), [("2024-01-02"), ("INFY"), ("10")]),
         ((("2024-01-03"), ("TCS")), [("2024-01-03"), ("TCS"), ("20")])]
        [[("x"), ("y"), ("1")], [("2024-01-02"), ("INFY"), ("9")], [("z"), ("w")]] :=
  ⟨by decide,
   replicate_bank_new_to_dest_idempotent 2
     [((("2024-01-02"), ("INFY")), [("2024-01-02"), ("INFY"), ("10")]),
      ((("2024-01-03"), ("TCS")), [("2024-01-03"), ("TCS"), ("20")])]
     [[("x"), ("y"), ("1")], [("2024-01-02"), ("INFY"), ("9")], [("z"), ("w")]]
     (by decide) (by decide) (by decide)⟩

/-- C6: the replication run is append-only with respect to foreign rows:
every destination row whose key is not a payload key keeps exactly its
contents at exactly its position, no destination row is ever deleted
(the run can only grow the sheet), and the extras-deletion list of the
action plan is empty. -/
theorem replicate_bank_new_to_dest_frame (page_size : Nat)
    (payload : List (SheetKey × Row)) (dest : List Row) (hps : 1 ≤ page_size) :
    dest.length ≤ (replicate_bank_new_to_dest page_size payload dest).length ∧
    (build_plan ((find_keys_in_sheet_paged dest (payload.map Prod.fst) page_size).1)
        payload).duplicates_to_delete = [] ∧
    ∀ (i : Nat) (r : Row), dest[i]? = some r → (∀ p ∈ payload, p.1 ≠ row_key r) →
      (replicate_bank_new_to_dest page_size payload dest)[i]? = some r := by
  have hplan : build_plan ((find_keys_in_sheet_paged dest (payload.map Prod.fst) page_size).1)
      payload = ⟨ovw_of payload dest, app_of payload dest, []⟩ := by
    apply build_plan_eq
    intro p hp
    rw [find_keys_lookup dest (payload.map Prod.fst) page_size hps p.1]
    rw [if_pos (List.mem_map_of_mem Prod.fst hp)]
  refine ⟨?_, by rw [hplan], ?_⟩
  · rw [replicate_unfold page_size hps payload dest, List.length_append,
      apply_overwrites_length]
    omega
  · intro i r hir hforeign
    have hilt : i < dest.length := (List.getElem?_eq_some.mp hir).1
    rw [replicate_unfold page_size hps payload dest]
    rw [List.getElem?_append]
    rw [if_pos (by rw [apply_overwrites_length]; exact hilt)]
    rw [apply_overwrites_get_ne]
    · exact hir
    · intro q hq hc
      rw [ovw_of, List.mem_filterMap] at hq
      obtain ⟨p, hp, hfq⟩ := hq
      cases hfi : first_idx p.1 dest with
      | none => rw [hfi] at hfq; simp at hfq
      | some j =>
        rw [hfi] at hfq
        simp only [Option.map_some', Option.some_inj] at hfq
        have hji : j = i := by
          have : q.1 = j + 1 := by rw [← hfq]
          omega
        obtain ⟨r0, hr0, hk0⟩ := first_idx_getElem p.1 dest j hfi
        rw [hji, hir] at hr0
        simp only [Option.some_inj] at hr0
        exact hforeign p hp (by rw [← hk0, hr0])

/-- Witness for C6: in a concrete run, the foreign row `["x","y","1"]` at
row 1 is untouched. -/
theorem replicate_bank_new_to_dest_frame_witness :
    (1 : Nat) ≤ 2 ∧
    (replicate_bank_new_to_dest 2
        [((("2024-01-02"), ("INFY")), [("2024-01-02"), ("INFY"), ("10")])]
        [[("x"), ("y"), ("1")], [("2024-01-02"), ("INFY"), ("9")]])[0]? =
      some [("x"), ("y"), ("1")] :=
  ⟨by decide,
   (replicate_bank_new_to_dest_frame 2
     [((("2024-01-02"), ("INFY")), [("2024-01-02"), ("INFY"), ("10")])]
     [[("x"), ("y"), ("1")], [("2024-01-02"), ("INFY"), ("9")]] (by decide)).2.2
     0 [("x"), ("y"), ("1")] (by decide) (by decide)⟩

end DataTeleporter


namespace DataTeleporter

theorem scan_rows_congr : ∀ (l1 l2 : List Row) (start : Nat) (needed : List SheetKey)
    (found : FoundMap),
    (∀ i : Nat, (l1[i]?).map row_key = (l2[i]?).map row_key) →
    scan_rows l1 start needed found = scan_rows l2 start needed found := by
  intro l1
  induction l1 with
  | nil =>
    intro l2 start needed found h
    cases l2 with
    | nil => rfl
    | cons r2 t2 =>
      have := h 0
      simp at this
  | cons r1 t1 ih =>
    intro l2 start needed found h
    cases l2 with
    | nil =>
      have := h 0
      simp at this
    | cons r2 t2 =>
      have h0 := h 0
      simp only [List.getElem?_cons_zero, Option.map_some', Option.some_inj] at h0
      simp only [scan_rows, h0]
      by_cases hm : row_key r2 ∈ needed
      · rw [if_pos hm, if_pos hm]
        exact ih t2 (start + 1) _ _ (fun i => by simpa using h (i + 1))
      · rw [if_neg hm, if_neg hm]
        exact ih t2 (start + 1) needed found (fun i => by simpa using h (i + 1))

theorem fk_go_congr (ps : Nat) : ∀ (fuel : Nat) (l1 l2 : List Row) (start : Nat)
    (needed : List SheetKey) (found : FoundMap) (pages : Nat),
    l1.length = l2.length →
    (∀ i : Nat, (l1[i]?).map row_key = (l2[i]?).map row_key) →
    fk_go ps fuel l1 start needed found pages = fk_go ps fuel l2 start needed found pages := by
  intro fuel
  induction fuel with
  | zero => intro l1 l2 start needed found pages _ _; rfl
  | succ n ih =>
    intro l1 l2 start needed found pages hlen h
    have hemp : l1.isEmpty = l2.isEmpty := by
      cases l1 with
      | nil => cases l2 with
        | nil => rfl
        | cons a b => simp at hlen
      | cons a b => cases l2 with
        | nil => simp at hlen
        | cons c d => rfl
    have hscan : scan_rows (l1.take ps) start needed found =
        scan_rows (l2.take ps) start needed found := by
      apply scan_rows_congr
      intro i
      rw [List.getElem?_take, List.getElem?_take]
      by_cases hi : i < ps
      · rw [if_pos hi, if_pos hi]
        exact h i
      · rw [if_neg hi, if_neg hi]
    simp only [fk_go, hemp, hscan]
    by_cases hc : (l2.isEmpty || needed.isEmpty) = true
    · rw [if_pos hc, if_pos hc]
    · rw [if_neg hc, if_neg hc]
      by_cases hc2 : (scan_rows (l2.take ps) start needed found).2.isEmpty = true
      · rw [if_pos hc2, if_pos hc2]
      · rw [if_neg hc2, if_neg hc2]
        apply ih
        · rw [List.length_drop, List.length_drop, hlen]
        · intro i
          rw [List.getElem?_drop, List.getElem?_drop]
          exact h (ps + i)

/-- C9: the paged key search depends only on each row's normalized
(date, symbol) key from columns A:B: two sheets of the same size that agree
on the normalized first two cells of every row give identical found maps
and identical page counts, and hence the replication plan — which
destination rows are overwritten versus appended — is identical too. -/
theorem find_keys_key_only_dependence (rows1 rows2 : List Row)
    (keys_set : List SheetKey) (page_size : Nat) (payload : List (SheetKey × Row))
    (hlen : rows1.length = rows2.length)
    (hkeys : ∀ i, i < rows1.length → (rows1[i]?).map row_key = (rows2[i]?).map row_key) :
    find_keys_in_sheet_paged rows1 keys_set page_size =
      find_keys_in_sheet_paged rows2 keys_set page_size ∧
    build_plan ((find_keys_in_sheet_paged rows1 (payload.map Prod.fst) page_size).1) payload =
      build_plan ((find_keys_in_sheet_paged rows2 (payload.map Prod.fst) page_size).1) payload := by
  have hall : ∀ i : Nat, (rows1[i]?).map row_key = (rows2[i]?).map row_key := by
    intro i
    by_cases hi : i < rows1.length
    · exact hkeys i hi
    · rw [List.getElem?_eq_none (by omega), List.getElem?_eq_none (by omega)]
  have hfind : ∀ ks : List SheetKey, find_keys_in_sheet_paged rows1 ks page_size =
      find_keys_in_sheet_paged rows2 ks page_size := by
    intro ks
    unfold find_keys_in_sheet_paged
    by_cases hp0 : page_size = 0
    · rw [if_pos hp0, if_pos hp0]
    · rw [if_neg hp0, if_neg hp0, hlen]
      exact fk_go_congr page_size rows2.length rows1 rows2 1 ks [] 0 hlen hall
  exact ⟨hfind keys_set, by rw [hfind (payload.map Prod.fst)]⟩

/-- Witness for C9: two concrete sheets that differ only in column C give
the same found map and page count. -/
theorem find_keys_key_only_dependence_witness :
    ([[("d1"), ("s1"), ("AAA")], [("d2"), ("s2")]] : List Row).length =
      ([[("d1"), ("s1"), ("BBB")], [("d2"), ("s2"), ("CCC")]] : List Row).length ∧
    find_keys_in_sheet_paged [[("d1"), ("s1"), ("AAA")], [("d2"), ("s2")]]
        [(("d2"), ("s2"))] 1 =
      find_keys_in_sheet_paged [[("d1"), ("s1"), ("BBB")], [("d2"), ("s2"), ("CCC")]]
        [(("d2"), ("s2"))] 1 :=
  ⟨by decide,
   (find_keys_key_only_dependence
     [[("d1"), ("s1"), ("AAA")], [("d2"), ("s2")]]
     [[("d1"), ("s1"), ("BBB")], [("d2"), ("s2"), ("CCC")]]
     [(("d2"), ("s2"))] 1 [] (by decide) (by decide)).1⟩

end DataTeleporter

namespace DataTeleporter

theorem gc_go_spec : ∀ (rest : List Nat) (start prev : Nat),
    start ≤ prev → List.Chain' (· < ·) (prev :: rest) →
    ((gc_go start prev rest).flatMap (fun p => List.range' p.1 (p.2 + 1 - p.1)) =
        List.range' start (prev + 1 - start) ++ rest) ∧
    (∀ p ∈ gc_go start prev rest, p.1 ≤ p.2) ∧
    List.Chain' (fun p q => p.2 + 1 < q.1) (gc_go start prev rest) ∧
    (gc_go start prev rest).head?.map Prod.fst = some start := by
  intro rest
  induction rest with
  | nil =>
    intro start prev hsp _
    refine ⟨?_, ?_, ?_, rfl⟩
    · simp [gc_go]
    · intro p hp
      simp only [gc_go, List.mem_singleton] at hp
      rw [hp]
      exact hsp
    · simp [gc_go]
  | cons i rest2 ih =>
    intro start prev hsp hch
    rw [List.chain'_cons] at hch
    obtain ⟨hpi, hch2⟩ := hch
    by_cases hstep : i = prev + 1
    · simp only [gc_go, if_pos hstep]
      obtain ⟨ih1, ih2, ih3, ih4⟩ := ih start i (by omega) hch2
      refine ⟨?_, ih2, ih3, ih4⟩
      rw [ih1]
      have hext : List.range' start (prev + 1 - start) ++ [i] =
          List.range' start (i + 1 - start) := by
        have : i + 1 - start = (prev + 1 - start) + 1 := by omega
        rw [this, List.range'_1_concat]
        have : start + (prev + 1 - start) = i := by omega
        rw [this]
      calc List.range' start (i + 1 - start) ++ rest2
          = (List.range' start (prev + 1 - start) ++ [i]) ++ rest2 := by rw [hext]
        _ = List.range' start (prev + 1 - start) ++ (i :: rest2) := by
            rw [List.append_assoc]
            rfl
    · simp only [gc_go, if_neg hstep]
      obtain ⟨ih1, ih2, ih3, ih4⟩ := ih i i le_rfl hch2
      refine ⟨?_, ?_, ?_, rfl⟩
      · rw [List.flatMap_cons, ih1]
        have : i + 1 - i = 1 := by omega
        rw [this]
        rfl
      · intro p hp
        rcases List.mem_cons.mp hp with heq | hm
        · rw [heq]
          exact hsp
        · exact ih2 p hm
      · rw [List.chain'_cons']
        refine ⟨?_, ih3⟩
        intro q hq
        have : q.1 = i := by
          cases hgo : (gc_go i i rest2).head? with
          | none => rw [hgo] at hq; simp at hq
          | some q2 =>
            rw [hgo] at hq
            rw [hgo] at ih4
            simp only [Option.map_some', Option.some_inj] at ih4
            simp only [Option.mem_def, Option.some_inj] at hq
            rw [hq] at ih4
            exact ih4
        rw [this]
        omega

end DataTeleporter

namespace DataTeleporter

theorem chunk_fuel_nil (b : Nat) : ∀ f : Nat, chunk_fuel b f ([] : List (Nat × Row)) = [] := by
  intro f
  cases f <;> rfl

theorem chunk_fuel_congr (b : Nat) (hb : 1 ≤ b) : ∀ (f1 f2 : Nat) (l : List (Nat × Row)),
    l.length ≤ f1 → l.length ≤ f2 → chunk_fuel b f1 l = chunk_fuel b f2 l := by
  intro f1
  induction f1 with
  | zero =>
    intro f2 l h1 _
    have : l = [] := List.length_eq_zero.mp (by omega)
    subst this
    rw [chunk_fuel_nil, chunk_fuel_nil]
  | succ n ih =>
    intro f2 l h1 h2
    cases l with
    | nil => rw [chunk_fuel_nil, chunk_fuel_nil]
    | cons x t =>
      cases f2 with
      | zero => simp at h2
      | succ m =>
        simp only [chunk_fuel]
        congr 1
        apply ih
        · rw [List.length_drop]
          simp only [List.length_cons] at h1 ⊢
          omega
        · rw [List.length_drop]
          simp only [List.length_cons] at h2 ⊢
          omega

theorem chunk_list_cons (b : Nat) (hb : 1 ≤ b) (x : Nat × Row) (t : List (Nat × Row)) :
    chunk_list b (x :: t) = (x :: t).take b :: chunk_list b ((x :: t).drop b) := by
  unfold chunk_list
  rw [if_neg (by omega), if_neg (by omega)]
  simp only [List.length_cons, chunk_fuel]
  congr 1
  apply chunk_fuel_congr b hb
  · rw [List.length_drop]
    simp only [List.length_cons]
    omega
  · rfl

theorem map_fst_range'_take : ∀ (g : List (Nat × Row)) (a b : Nat),
    g.map Prod.fst = List.range' a g.length →
    (g.take b).map Prod.fst = List.range' a (g.take b).length := by
  intro g
  induction g with
  | nil => intro a b _; simp
  | cons x t ih =>
    intro a b h
    simp only [List.length_cons, List.range'_succ, List.map_cons, List.cons.injEq] at h
    obtain ⟨hx, ht⟩ := h
    cases b with
    | zero => simp
    | succ m =>
      simp only [List.take_succ_cons, List.map_cons, List.length_cons, List.range'_succ]
      rw [hx, ih (a + 1) m ht]

theorem map_fst_range'_drop : ∀ (g : List (Nat × Row)) (a b : Nat),
    g.map Prod.fst = List.range' a g.length →
    (g.drop b).map Prod.fst = List.range' (a + (g.take b).length) (g.drop b).length := by
  intro g
  induction g with
  | nil => intro a b _; simp
  | cons x t ih =>
    intro a b h
    simp only [List.length_cons, List.range'_succ, List.map_cons, List.cons.injEq] at h
    obtain ⟨hx, ht⟩ := h
    cases b with
    | zero =>
      simp only [List.drop_zero, List.take_zero, List.length_nil, Nat.add_zero]
      rw [List.map_cons, hx, ht]
      simp [List.range'_succ]
    | succ m =>
      simp only [List.drop_succ_cons, List.take_succ_cons, List.length_cons]
      rw [ih (a + 1) m ht]
      congr 1
      omega

theorem head_fst_of_range' (g : List (Nat × Row)) (a : Nat) (hne : g ≠ [])
    (h : g.map Prod.fst = List.range' a g.length) : (g.headD (0, [])).1 = a := by
  cases g with
  | nil => exact absurd rfl hne
  | cons x t =>
    simp only [List.length_cons, List.range'_succ, List.map_cons, List.cons.injEq] at h
    exact h.1

theorem last_fst_of_range' (g : List (Nat × Row)) (a : Nat) (hne : g ≠ [])
    (h : g.map Prod.fst = List.range' a g.length) :
    (g.getLastD (0, [])).1 = a + g.length - 1 := by
  obtain ⟨n, hn⟩ : ∃ n, g.length = n + 1 := by
    cases g with
    | nil => exact absurd rfl hne
    | cons x t => exact ⟨t.length, by simp⟩
  have hlast : (g.map Prod.fst).getLast? = some (a + n) := by
    rw [h, hn, List.range'_1_concat, List.getLast?_append]
    rfl
  rw [List.getLast?_map] at hlast
  cases hg : g.getLast? with
  | none => rw [hg] at hlast; simp at hlast
  | some p =>
    rw [hg] at hlast
    simp only [Option.map_some', Option.some_inj] at hlast
    rw [List.getLastD_eq_getLast?, hg]
    simp only [Option.getD_some]
    omega

theorem get_fst_of_range' (g : List (Nat × Row)) (a : Nat) (j : Nat) (hj : j < g.length)
    (h : g.map Prod.fst = List.range' a g.length) :
    (g[j]?).map Prod.fst = some (a + j) := by
  have := List.getElem?_map Prod.fst g j
  rw [h] at this
  rw [← this, List.getElem?_range' a 1 hj]
  simp

end DataTeleporter

namespace DataTeleporter

theorem chunks_spec (b : Nat) (hb : 1 ≤ b) : ∀ (fuel : Nat) (g : List (Nat × Row)) (a : Nat),
    g.length ≤ fuel → g ≠ [] → g.map Prod.fst = List.range' a g.length →
    ((chunk_list b g).map to_write).head?.map (fun w => w.1) = some a ∧
    ((chunk_list b g).map to_write).getLast?.map (fun w => w.2.1) = some (a + g.length - 1) ∧
    ((chunk_list b g).map to_write).flatMap (fun w => List.range' w.1 (w.2.1 + 1 - w.1)) =
      List.range' a g.length ∧
    (∀ w ∈ (chunk_list b g).map to_write,
      w.1 ≤ w.2.1 ∧ w.2.2.length = w.2.1 + 1 - w.1 ∧ w.2.2.length ≤ b ∧
      ∀ (j : Nat) (r : Row), w.2.2[j]? = some r → (w.1 + j, r) ∈ g) ∧
    List.Chain' (fun w w2 => w.2.1 + 1 = w2.1 ∧ w.2.1 + 1 - w.1 = b)
      ((chunk_list b g).map to_write) := by
  intro fuel
  induction fuel with
  | zero =>
    intro g a hf hne _
    exact absurd (List.length_eq_zero.mp (by omega)) hne
  | succ n ih =>
    intro g a hf hne hmap
    obtain ⟨x, t, rfl⟩ : ∃ x t, g = x :: t := by
      cases g with
      | nil => exact absurd rfl hne
      | cons x t => exact ⟨x, t, rfl⟩
    rw [chunk_list_cons b hb x t]
    set g := x :: t with hg
    set c := g.take b with hc
    set d := g.drop b with hd
    have hglen : 1 ≤ g.length := by rw [hg]; simp
    have hcne : c ≠ [] := by
      rw [hc, hg]
      cases b with
      | zero => omega
      | succ m => simp
    have hclen : c.length = min b g.length := by rw [hc, List.length_take]
    have hclen1 : 1 ≤ c.length := by
      cases hcc : c with
      | nil => exact absurd hcc hcne
      | cons y ys => simp [hcc]
    have hcmap : c.map Prod.fst = List.range' a c.length := map_fst_range'_take g a b hmap
    have hdmap : d.map Prod.fst = List.range' (a + c.length) d.length :=
      map_fst_range'_drop g a b hmap
    have hchead : (c.headD (0, [])).1 = a := head_fst_of_range' c a hcne hcmap
    have hclast : (c.getLastD (0, [])).1 = a + c.length - 1 := last_fst_of_range' c a hcne hcmap
    have e2 : (to_write c).1 = a := by simp only [to_write]; exact hchead
    have e3 : (to_write c).2.1 = a + c.length - 1 := by simp only [to_write]; exact hclast
    have hw2 : (to_write c).1 ≤ (to_write c).2.1 ∧
        (to_write c).2.2.length = (to_write c).2.1 + 1 - (to_write c).1 ∧
        (to_write c).2.2.length ≤ b ∧
        ∀ (j : Nat) (r : Row), (to_write c).2.2[j]? = some r →
          ((to_write c).1 + j, r) ∈ g := by
      refine ⟨by omega, ?_, ?_, ?_⟩
      · simp only [to_write, List.length_map]
        omega
      · simp only [to_write, List.length_map]
        omega
      · intro j r hjr
        simp only [to_write, List.getElem?_map] at hjr
        obtain ⟨p, hcj, hp2⟩ := Option.map_eq_some'.mp hjr
        have hjlt : j < c.length := (List.getElem?_eq_some.mp hcj).1
        have hfst := get_fst_of_range' c a j hjlt hcmap
        rw [hcj] at hfst
        simp only [Option.map_some', Option.some_inj] at hfst
        have hpmem : p ∈ c := List.getElem?_mem hcj
        have hpeq : p = ((to_write c).1 + j, r) := by
          rw [e2, ← hfst, ← hp2]
        rw [← hpeq]
        exact List.mem_of_mem_take (hc ▸ hpmem)
    have hf1 : List.range' (to_write c).1 ((to_write c).2.1 + 1 - (to_write c).1) =
        List.range' a c.length := by
      rw [e2, e3]
      congr 1
      omega
    by_cases hdnil : d = []
    · have hcg : c.length = g.length := by
        have := List.drop_eq_nil_iff.mp (hd ▸ hdnil)
        omega
      have hnil2 : chunk_list b ([] : List (Nat × Row)) = [] := by
        unfold chunk_list
        rw [if_neg (by omega)]
        rfl
      rw [hdnil, hnil2, List.map_cons, List.map_nil]
      refine ⟨?_, ?_, ?_, ?_, ?_⟩
      · simp [e2]
      · simp only [List.getLast?_singleton, Option.map_some', Option.some_inj]
        omega
      · simp only [List.flatMap_cons, List.flatMap_nil, List.append_nil]
        rw [hf1]
        congr 1
      · intro w hw
        simp only [List.mem_singleton] at hw
        rw [hw]
        exact hw2
      · simp
    · have hgb : b < g.length := by
        by_contra hcon
        exact hdnil (hd ▸ List.drop_eq_nil_of_le (by omega))
      have hclenb : c.length = b := by omega
      have hdlen : d.length = g.length - b := by rw [hd, List.length_drop]
      obtain ⟨ihH, ihL, ihF, ihW, ihC⟩ := ih d (a + c.length)
        (by omega) hdnil hdmap
      rw [List.map_cons]
      refine ⟨?_, ?_, ?_, ?_, ?_⟩
      · simp [e2]
      · rw [show to_write c :: (chunk_list b d).map to_write =
          [to_write c] ++ (chunk_list b d).map to_write from rfl]
        rw [List.getLast?_append]
        cases hlast : ((chunk_list b d).map to_write).getLast? with
        | none =>
          rw [hlast] at ihL
          simp at ihL
        | some w =>
          rw [hlast] at ihL
          simp only [Option.map_some', Option.some_inj] at ihL
          simp only [Option.or, Option.map_some', Option.some_inj]
          omega
      · simp only [List.flatMap_cons]
        rw [ihF, hf1]
        have hra := List.range'_append a c.length d.length 1
        rw [one_mul] at hra
        rw [hra]
        congr 1
        omega
      · intro w hw
        rcases List.mem_cons.mp hw with heq | hm
        · rw [heq]
          exact hw2
        · obtain ⟨h1, h2, h3, h4⟩ := ihW w hm
          exact ⟨h1, h2, h3, fun j r hjr => List.mem_of_mem_drop (hd ▸ h4 j r hjr)⟩
      · rw [List.chain'_cons']
        refine ⟨?_, ihC⟩
        intro w2 hw2h
        cases hhead : ((chunk_list b d).map to_write).head? with
        | none => rw [hhead] at hw2h; simp at hw2h
        | some w0 =>
          rw [hhead] at ihH hw2h
          simp only [Option.map_some', Option.some_inj] at ihH
          simp only [Option.mem_def, Option.some_inj] at hw2h
          have ew2 : w2.1 = a + c.length := by rw [← hw2h]; exact ihH
          exact ⟨by omega, by omega⟩

end DataTeleporter

namespace DataTeleporter

theorem sort_by_sorted_pairs : ∀ (l : List (Nat × Row)),
    List.Chain' (fun x y => x.1 < y.1) l →
    sort_by (fun a b => decide (a.1 ≤ b.1)) l = l := by
  intro l
  induction l with
  | nil => intro _; rfl
  | cons x t ih =>
    intro hch
    have hch2 := (List.chain'_cons'.mp hch).2
    simp only [sort_by]
    rw [ih hch2]
    cases t with
    | nil => rfl
    | cons y t2 =>
      have hxy : x.1 < y.1 := (List.chain'_cons.mp hch).1
      simp only [sorted_insert]
      rw [if_pos (by simp; omega)]

theorem ow_go_spec : ∀ (rest current : List (Nat × Row)) (prev c0 : Nat),
    current ≠ [] →
    current.map Prod.fst = List.range' c0 current.length →
    prev = c0 + current.length - 1 →
    List.Chain' (fun x y => x.1 < y.1) rest →
    (∀ q ∈ rest.head?, prev < q.1) →
    ((ow_go current prev rest).flatMap id = current ++ rest) ∧
    (∀ g ∈ ow_go current prev rest, g ≠ [] ∧
      g.map Prod.fst = List.range' ((g.headD (0, [])).1) g.length) ∧
    List.Chain' (fun g g2 => (g.getLastD (0, [])).1 + 1 < (g2.headD (0, [])).1)
      (ow_go current prev rest) ∧
    (ow_go current prev rest).head?.map (fun g => (g.headD (0, [])).1) = some c0 := by
  intro rest
  induction rest with
  | nil =>
    intro current prev c0 hne hmap hprev _ _
    have hhead : (current.headD (0, [])).1 = c0 := head_fst_of_range' current c0 hne hmap
    refine ⟨by simp [ow_go], ?_, by simp [ow_go],
      by simp only [ow_go, List.head?_cons, Option.map_some', Option.some_inj]; exact hhead⟩
    intro g hg
    simp only [ow_go, List.mem_singleton] at hg
    rw [hg, hhead]
    exact ⟨hne, hmap⟩
  | cons p rest2 ih =>
    intro current prev c0 hne hmap hprev hch hlink
    have hpp : prev < p.1 := hlink p rfl
    have hch2 := (List.chain'_cons'.mp hch).2
    have hlink2 : ∀ q ∈ rest2.head?, p.1 < q.1 := (List.chain'_cons'.mp hch).1
    have hhead : (current.headD (0, [])).1 = c0 := head_fst_of_range' current c0 hne hmap
    have hlast : (current.getLastD (0, [])).1 = c0 + current.length - 1 :=
      last_fst_of_range' current c0 hne hmap
    have hlen1 : 1 ≤ current.length := by
      cases current with
      | nil => exact absurd rfl hne
      | cons z zs => simp
    by_cases hstep : p.1 = prev + 1
    · simp only [ow_go, if_pos hstep]
      have hmap2 : (current ++ [p]).map Prod.fst =
          List.range' c0 (current ++ [p]).length := by
        rw [List.map_append, hmap, List.length_append]
        simp only [List.map_cons, List.map_nil, List.length_cons, List.length_nil]
        have : p.1 = c0 + current.length := by omega
        rw [this, ← List.range'_1_concat]
      have hprev2 : p.1 = c0 + (current ++ [p]).length - 1 := by
        rw [List.length_append, List.length_cons, List.length_nil]
        omega
      obtain ⟨ih1, ih2, ih3, ih4⟩ := ih (current ++ [p]) p.1 c0 (by simp)
        hmap2 hprev2 hch2 hlink2
      refine ⟨?_, ih2, ih3, ih4⟩
      rw [ih1, List.append_assoc]
      rfl
    · simp only [ow_go, if_neg hstep]
      have hmapp : ([p] : List (Nat × Row)).map Prod.fst = List.range' p.1 ([p] : List (Nat × Row)).length := by
        simp [List.range'_one]
      obtain ⟨ih1, ih2, ih3, ih4⟩ := ih [p] p.1 p.1 (by simp) hmapp (by simp)
        hch2 hlink2
      refine ⟨?_, ?_, ?_,
        by simp only [List.head?_cons, Option.map_some', Option.some_inj]; exact hhead⟩
      · rw [List.flatMap_cons, ih1]
        rfl
      · intro g hg
        rcases List.mem_cons.mp hg with heq | hm
        · rw [heq, hhead]
          exact ⟨hne, hmap⟩
        · exact ih2 g hm
      · rw [List.chain'_cons']
        refine ⟨?_, ih3⟩
        intro g2 hg2
        cases hh : (ow_go [p] p.1 rest2).head? with
        | none => rw [hh] at hg2; simp at hg2
        | some g3 =>
          rw [hh] at hg2 ih4
          simp only [Option.map_some', Option.some_inj] at ih4
          simp only [Option.mem_def, Option.some_inj] at hg2
          rw [hg2] at ih4
          rw [hlast, ih4]
          omega

end DataTeleporter

namespace DataTeleporter

theorem writes_assemble (b : Nat) (hb : 1 ≤ b) : ∀ (gs : List (List (Nat × Row))),
    (∀ g ∈ gs, g ≠ [] ∧ g.map Prod.fst = List.range' ((g.headD (0, [])).1) g.length) →
    List.Chain' (fun g g2 => (g.getLastD (0, [])).1 + 1 < (g2.headD (0, [])).1) gs →
    ((gs.flatMap (fun g => (chunk_list b g).map to_write)).flatMap
        (fun w => List.range' w.1 (w.2.1 + 1 - w.1)) =
      gs.flatMap (fun g => g.map Prod.fst)) ∧
    (∀ w ∈ gs.flatMap (fun g => (chunk_list b g).map to_write),
      w.1 ≤ w.2.1 ∧ w.2.2.length = w.2.1 + 1 - w.1 ∧ w.2.2.length ≤ b ∧
      ∀ (j : Nat) (r : Row), w.2.2[j]? = some r → ∃ g ∈ gs, (w.1 + j, r) ∈ g) ∧
    List.Chain' (fun w w2 => w.2.1 < w2.1 ∧ (w.2.1 + 1 < w2.1 ∨ w.2.1 + 1 - w.1 = b))
      (gs.flatMap (fun g => (chunk_list b g).map to_write)) ∧
    (gs.flatMap (fun g => (chunk_list b g).map to_write)).head?.map (fun w => w.1) =
      gs.head?.map (fun g => (g.headD (0, [])).1) := by
  intro gs
  induction gs with
  | nil => intro _ _; exact ⟨rfl, by simp, by simp, rfl⟩
  | cons g gs2 ih =>
    intro hgs hch
    obtain ⟨hgne, hgmap⟩ := hgs g (List.mem_cons_self _ _)
    have hglen1 : 1 ≤ g.length := by
      cases g with
      | nil => exact absurd rfl hgne
      | cons z zs => simp
    obtain ⟨cH, cL, cF, cW, cC⟩ := chunks_spec b hb g.length g ((g.headD (0, [])).1)
      le_rfl hgne hgmap
    have hch2 := (List.chain'_cons'.mp hch).2
    have hlink := (List.chain'_cons'.mp hch).1
    obtain ⟨iF, iW, iC, iH⟩ := ih (fun g2 hg2 => hgs g2 (List.mem_cons_of_mem _ hg2)) hch2
    rw [List.flatMap_cons]
    refine ⟨?_, ?_, ?_, ?_⟩
    · rw [List.flatMap_append, cF, iF, List.flatMap_cons]
      rw [hgmap]
    · intro w hw
      rcases List.mem_append.mp hw with hm | hm
      · obtain ⟨h1, h2, h3, h4⟩ := cW w hm
        exact ⟨h1, h2, h3, fun j r hjr => ⟨g, List.mem_cons_self _ _, h4 j r hjr⟩⟩
      · obtain ⟨h1, h2, h3, h4⟩ := iW w hm
        refine ⟨h1, h2, h3, fun j r hjr => ?_⟩
        obtain ⟨g2, hg2, hm2⟩ := h4 j r hjr
        exact ⟨g2, List.mem_cons_of_mem _ hg2, hm2⟩
    · rw [List.chain'_append]
      refine ⟨cC.imp ?_, iC, ?_⟩
      · intro w w2 hr
        exact ⟨by omega, Or.inr hr.2⟩
      · intro x hx y hy
        have hxval : x.2.1 = (g.headD (0, [])).1 + g.length - 1 := by
          cases hcl : ((chunk_list b g).map to_write).getLast? with
          | none => rw [hcl] at hx; simp at hx
          | some w0 =>
            rw [hcl] at hx cL
            simp only [Option.map_some', Option.some_inj] at cL
            simp only [Option.mem_def, Option.some_inj] at hx
            rw [hx] at cL
            exact cL
        cases hh2 : gs2.head? with
        | none =>
          cases hws2 : (gs2.flatMap (fun g => (chunk_list b g).map to_write)).head? with
          | none => rw [hws2] at hy; simp at hy
          | some w1 =>
            rw [hws2] at iH
            rw [hh2] at iH
            simp at iH
        | some g2 =>
          have hg2first : ∀ y2 ∈ (gs2.flatMap (fun g => (chunk_list b g).map to_write)).head?,
              y2.1 = (g2.headD (0, [])).1 := by
            intro y2 hy2
            cases hws2 : (gs2.flatMap (fun g => (chunk_list b g).map to_write)).head? with
            | none => rw [hws2] at hy2; simp at hy2
            | some w1 =>
              rw [hws2] at hy2 iH
              rw [hh2] at iH
              simp only [Option.map_some', Option.some_inj] at iH
              simp only [Option.mem_def, Option.some_inj] at hy2
              rw [hy2] at iH
              exact iH
          have hyval : y.1 = (g2.headD (0, [])).1 := hg2first y hy
          have hgap : (g.getLastD (0, [])).1 + 1 < (g2.headD (0, [])).1 := by
            apply hlink
            rw [hh2]
            rfl
          have hglast : (g.getLastD (0, [])).1 = (g.headD (0, [])).1 + g.length - 1 :=
            last_fst_of_range' g ((g.headD (0, [])).1) hgne hgmap
          refine ⟨by omega, Or.inl (by omega)⟩
    · cases hcgh : ((chunk_list b g).map to_write).head? with
      | none => rw [hcgh] at cH; simp at cH
      | some w0 =>
        rw [hcgh] at cH
        simp only [Option.map_some', Option.some_inj] at cH
        rw [List.head?_append, hcgh, List.head?_cons]
        simp only [Option.or, Option.map_some', Option.some_inj]
        exact cH

end DataTeleporter

namespace DataTeleporter

/-- C7: `_group_contiguous` splits a sorted list of distinct indices into
its maximal runs of consecutive integers, in order: concatenating the
inclusive intervals reproduces the input, every `(start, end)` satisfies
`start ≤ end`, and consecutive runs are separated by a gap.  And
`batch_overwrite_rows` issues its ranged writes exactly on such maximal
runs of the sorted update indices, each run split into chunks of at most
`batch_size` rows: the written ranges cover exactly the update indices in
order, each write covers the consecutive rows `start..end` with each row's
values at its own index, and a new write starts only at a run gap or when
the previous chunk is full. -/
theorem group_contiguous_batch_overwrite_spec :
    (∀ l : List Nat, List.Chain' (· < ·) l →
      ((group_contiguous l).flatMap (fun p => List.range' p.1 (p.2 + 1 - p.1)) = l) ∧
      (∀ p ∈ group_contiguous l, p.1 ≤ p.2) ∧
      List.Chain' (fun p q => p.2 + 1 < q.1) (group_contiguous l)) ∧
    (∀ (updates : List (Nat × Row)) (batch_size : Nat), 1 ≤ batch_size →
      List.Chain' (fun x y => x.1 < y.1) updates →
      ((batch_overwrite_rows updates batch_size).flatMap
          (fun w => List.range' w.1 (w.2.1 + 1 - w.1)) = updates.map Prod.fst) ∧
      (∀ w ∈ batch_overwrite_rows updates batch_size,
        w.1 ≤ w.2.1 ∧ w.2.2.length = w.2.1 + 1 - w.1 ∧ w.2.2.length ≤ batch_size ∧
        ∀ (j : Nat) (r : Row), w.2.2[j]? = some r → (w.1 + j, r) ∈ updates) ∧
      List.Chain' (fun w w2 => w.2.1 < w2.1 ∧
        (w.2.1 + 1 < w2.1 ∨ w.2.1 + 1 - w.1 = batch_size))
        (batch_overwrite_rows updates batch_size)) := by
  constructor
  · intro l hch
    cases l with
    | nil => exact ⟨rfl, by simp [group_contiguous], by simp [group_contiguous]⟩
    | cons i rest =>
      obtain ⟨h1, h2, h3, _⟩ := gc_go_spec rest i i le_rfl hch
      refine ⟨?_, h2, h3⟩
      rw [show group_contiguous (i :: rest) = gc_go i i rest from rfl, h1]
      have hone : i + 1 - i = 1 := by omega
      rw [hone, List.range'_one]
      rfl
  · intro updates batch_size hb hch
    have hsort : sort_by (fun a b => decide (a.1 ≤ b.1)) updates = updates :=
      sort_by_sorted_pairs updates hch
    simp only [batch_overwrite_rows]
    rw [hsort]
    cases updates with
    | nil => exact ⟨rfl, by simp [ow_groups], by simp [ow_groups]⟩
    | cons p rest =>
      obtain ⟨G1, G2, G3, _⟩ := ow_go_spec rest [p] p.1 p.1 (by simp)
        (by simp [List.range'_one]) (by simp)
        ((List.chain'_cons'.mp hch).2)
        (fun q hq => (List.chain'_cons'.mp hch).1 q hq)
      obtain ⟨F, W, C, _⟩ := writes_assemble batch_size hb (ow_go [p] p.1 rest) G2 G3
      rw [show ow_groups (p :: rest) = ow_go [p] p.1 rest from rfl]
      refine ⟨?_, ?_, C⟩
      · rw [F, ← List.map_flatMap]
        rw [show ((ow_go [p] p.1 rest).flatMap fun g => g) =
          (ow_go [p] p.1 rest).flatMap id from rfl, G1]
        rfl
      · intro w hw
        obtain ⟨h1, h2, h3, h4⟩ := W w hw
        refine ⟨h1, h2, h3, fun j r hjr => ?_⟩
        obtain ⟨g, hg, hm⟩ := h4 j r hjr
        have hmem : (w.1 + j, r) ∈ (ow_go [p] p.1 rest).flatMap id :=
          List.mem_flatMap.mpr ⟨g, hg, hm⟩
        rw [G1] at hmem
        exact hmem

/-- Witness for C7: on the sorted distinct indices 1, 2, 5 with
`batch_size = 2`, the issued ranged writes cover exactly those indices in
order. -/
theorem group_contiguous_batch_overwrite_spec_witness :
    ((1 : Nat) ≤ 2 ∧
      List.Chain' (fun (x y : Nat × Row) => x.1 < y.1)
        [(1, [("a")]), (2, [("b")]), (5, [("c")])]) ∧
    (batch_overwrite_rows [(1, [("a")]), (2, [("b")]), (5, [("c")])] 2).flatMap
        (fun w => List.range' w.1 (w.2.1 + 1 - w.1)) = [1, 2, 5] :=
  ⟨⟨by decide, by simp [List.chain'_cons]⟩,
   ((group_contiguous_batch_overwrite_spec.2
      [(1, [("a")]), (2, [("b")]), (5, [("c")])] 2 (by decide)
      (by simp [List.chain'_cons])).1).trans (by decide)⟩

end DataTeleporter
